import Mathlib

/-!
# PerceptualColor: conversion graph and gamut engine

A shallow embedding of the colour-space conversion graph declared in
`src/absolutecolor.h` (and, identically, in `src/multicolor2.h`), of the value
type `GenericColor` (`src/genericcolor.h`, `src/genericcolor.cpp`), of the
gamut oracle and chroma reducer declared in `src/rgbcolorspace.h`, of the
setters of `MultiSpinBoxSection` (`src/multispinboxsection.cpp`) and of the
gradient parameters (`src/gradientimageparameters.cpp`).

Conventions.
* A finite C++ `double` is a rational number.  Code that only stores, copies
  and compares doubles is exact on them.  Where the code at hand computes with
  doubles (`gradientimageparameters.cpp`), every operation rounds its exact
  result to binary64 (`roundToDouble`).  The setters of `MultiSpinBoxSection`
  take any `double`, not-a-number and the infinities included
  (`SectionDouble`).  Definitions modelled from the spec use exact values.
* The eight edge functions of the conversion table are floating-point code
  whose bodies are not part of the sources at hand.  The table therefore stores
  the *name* of the function (`ConversionFunction`), and every operation that
  has to call an edge function takes the interpretation of the names as a
  parameter.
-/

namespace PerceptualColor

/-! ## Data model -/

/-- Identifiers for colour spaces (`MultiColor2::ColorSpace`), in declaration
order. -/
inductive ColorSpace where
  | CielabD50
  | CielchD50
  | XyzD50
  | XyzD65
  | OklabD65
  | OklchD65
  deriving DecidableEq

/-- Every colour space, in declaration order. -/
def ColorSpace.all : List ColorSpace :=
  [.CielabD50, .CielchD50, .XyzD50, .XyzD65, .OklabD65, .OklchD65]

/-- Numeric representation of a colour without specifying the colour space
(`struct GenericColor`): four doubles, each defaulting to `0`. -/
structure GenericColor where
  first : ℚ := 0
  second : ℚ := 0
  third : ℚ := 0
  fourth : ℚ := 0
  deriving DecidableEq

/-- Names of the eight static conversion functions of `AbsoluteColor`; the
table `conversionList` stores pointers to them. -/
inductive ConversionFunction where
  | fromXyzD50ToXyzD65
  | fromXyzD65ToXyzD50
  | fromXyzD65ToOklab
  | fromOklabToXyzD65
  | fromXyzD50ToCielabD50
  | fromCielabD50ToXyzD50
  | fromPolarToCartesian
  | fromCartesianToPolar
  deriving DecidableEq

/-- Gives access to a conversion function (`AbsoluteColor::Conversion`): the
space converted from, the space converted to, and the function. -/
structure Conversion where
  «from» : ColorSpace
  «to» : ColorSpace
  conversionFunction : ConversionFunction
  deriving DecidableEq

/-- List of all conversion accesses (`AbsoluteColor::conversionList`), in the
order of the source. -/
def conversionList : List Conversion :=
  [ ⟨.XyzD50, .XyzD65, .fromXyzD50ToXyzD65⟩,
    ⟨.XyzD65, .XyzD50, .fromXyzD65ToXyzD50⟩,
    ⟨.OklabD65, .XyzD65, .fromOklabToXyzD65⟩,
    ⟨.XyzD65, .OklabD65, .fromXyzD65ToOklab⟩,
    ⟨.XyzD50, .CielabD50, .fromXyzD50ToCielabD50⟩,
    ⟨.CielabD50, .XyzD50, .fromCielabD50ToXyzD50⟩,
    ⟨.CielchD50, .CielabD50, .fromPolarToCartesian⟩,
    ⟨.OklchD65, .OklabD65, .fromPolarToCartesian⟩,
    ⟨.CielabD50, .CielchD50, .fromCartesianToPolar⟩,
    ⟨.OklabD65, .OklchD65, .fromCartesianToPolar⟩ ]

/-! ## The result mapping -/

/-- The mapping type `QHash<ColorSpace, GenericColor>`, kept as the list of
its key/value entries.  The operations below are the three the traversal
uses. -/
abbrev ColorHash := List (ColorSpace × GenericColor)

/-- Membership test `QHash::contains`. -/
def ColorHash.contains (h : ColorHash) (key : ColorSpace) : Bool :=
  h.any (fun e => decide (e.1 = key))

/-- Lookup `QHash::value`: the value stored under the key, a
default-constructed `GenericColor` when the key is absent. -/
def ColorHash.value (h : ColorHash) (key : ColorSpace) : GenericColor :=
  match h.find? (fun e => decide (e.1 = key)) with
  | some e => e.2
  | none => {}

/-- Insertion `QHash::insert`: an entry with the same key is replaced,
otherwise a new entry is added. -/
def ColorHash.insert : ColorHash → ColorSpace → GenericColor → ColorHash
  | [], key, v => [(key, v)]
  | e :: rest, key, v =>
      if e.1 = key then (key, v) :: rest else e :: ColorHash.insert rest key v

/-- The keys of the mapping (`QHash::keys`). -/
def ColorHash.keys (h : ColorHash) : List ColorSpace :=
  h.map Prod.fst

/-! ## Traversal of the conversion graph -/

/-- Modelled from the spec: the body of `AbsoluteColor::conversionsFrom` is not
among the sources.  The spec: "look up all edges whose `from` equals that node
(`conversionsFrom`)". -/
def conversionsFrom (space : ColorSpace) : List Conversion :=
  conversionList.filter (fun c => decide (c.«from» = space))

/-- State threaded through the traversal: the result mapping `values` that the
C++ code updates through a pointer, and a ghost log `calls` recording, in
order, the space argument of every call of `addDirectConversionsRecursivly`. -/
structure Traversal where
  values : ColorHash
  calls : List ColorSpace
  deriving DecidableEq

/-- The loop over the conversions available at one node.  `recurse` is the
recursive call; `currentValue` is the value of the node the loop belongs to.
A target that is already in the mapping is skipped; otherwise the converted
value is inserted and the traversal recurses from the target. -/
def visitConversions (apply : ConversionFunction → GenericColor → GenericColor)
    (recurse : Traversal → ColorSpace → Option Traversal) (currentValue : GenericColor) :
    List Conversion → Traversal → Option Traversal
  | [], t => some t
  | conversion :: rest, t =>
      if t.values.contains conversion.«to» then
        visitConversions apply recurse currentValue rest t
      else
        match recurse
            { t with values := t.values.insert conversion.«to»
                        (apply conversion.conversionFunction currentValue) }
            conversion.«to» with
        | none => none
        | some t' => visitConversions apply recurse currentValue rest t'

/-- Modelled from the spec: the body of
`AbsoluteColor::addDirectConversionsRecursivly` is not among the sources.  The
spec: "At each visited node, look up all edges whose `from` equals that node
(`conversionsFrom`), compute the target value by invoking the edge function,
and if the target space is not yet in the result mapping, insert it and recurse
from the target."  The first argument bounds the recursion depth; `none` means
the bound was hit. -/
def addDirectConversionsRecursivly (apply : ConversionFunction → GenericColor → GenericColor) :
    Nat → Traversal → ColorSpace → Option Traversal
  | 0, _, _ => none
  | fuel + 1, t, space =>
      visitConversions apply (addDirectConversionsRecursivly apply fuel)
        (t.values.value space) (conversionsFrom space)
        { t with calls := t.calls ++ [space] }

/-- The traversal started by `allConversions`: the mapping holds the source
entry only, and the recursion starts at the source space. -/
def traverse (apply : ConversionFunction → GenericColor → GenericColor) (fuel : Nat)
    (space : ColorSpace) (value : GenericColor) : Option Traversal :=
  addDirectConversionsRecursivly apply fuel
    { values := ColorHash.insert [] space value, calls := [] } space

/-- Modelled from the spec: the body of `AbsoluteColor::allConversions` is not
among the sources.  The spec: "a mapping containing, at minimum, the source
space itself (identity) plus every space reachable by following directed
conversion edges, applying each edge's function to the accumulated value at its
source node."  The recursion depth is bounded by the number of colour spaces. -/
def allConversions (apply : ConversionFunction → GenericColor → GenericColor)
    (space : ColorSpace) (value : GenericColor) : Option ColorHash :=
  (traverse apply ColorSpace.all.length space value).map Traversal.values

/-! ## Directed paths in the conversion graph -/

/-- Whether the list of edges is a directed path from `a` to `b` made of edges
of `conversionList`: every edge is in the table, the first starts at `a`, each
next edge starts where the previous one ends, and the last ends at `b`. -/
def isPath : ColorSpace → ColorSpace → List Conversion → Bool
  | a, b, [] => decide (a = b)
  | a, b, e :: rest =>
      decide (e ∈ conversionList) && decide (e.«from» = a) && isPath e.«to» b rest

/-- The three-edge path CielchD50 → CielabD50 → XyzD50 → XyzD65. -/
def pathCielchD50ToXyzD65 : List Conversion :=
  [ ⟨.CielchD50, .CielabD50, .fromPolarToCartesian⟩,
    ⟨.CielabD50, .XyzD50, .fromCielabD50ToXyzD50⟩,
    ⟨.XyzD50, .XyzD65, .fromXyzD50ToXyzD65⟩ ]

/-! ## Gamut oracle and chroma reducer -/

/-- A colour in cylindrical coordinates: lightness, chroma, hue
(`LchDouble`; the spec: "plain value structs (lightness/chroma/hue ...)"). -/
structure LchDouble where
  l : ℚ
  c : ℚ
  h : ℚ
  deriving DecidableEq

/-- A device colour with the channels as doubles (`RgbDouble`). -/
structure RgbDouble where
  red : ℚ
  green : ℚ
  blue : ℚ
  deriving DecidableEq

/-- The LittleCMS type `cmsCIELab`. -/
structure cmsCIELab where
  L : ℚ
  a : ℚ
  b : ℚ
  deriving DecidableEq

/-- Modelled from the spec: the private implementation behind `RgbColorSpace`
(the ICC profile and its LittleCMS transforms) is not among the sources.  The
record holds what the gamut test reads from a profile: the recorded maximum
chroma bounds, the unbounded transform to device RGB for each kind of input,
and whether a colour round-trips through the profile within the tolerance. -/
structure RgbColorSpace where
  profileMaximumCielchD50Chroma : ℚ
  profileMaximumOklchChroma : ℚ
  fromCielabD50ToRgbDoubleUnbound : cmsCIELab → RgbDouble
  fromCielchD50ToRgbDoubleUnbound : LchDouble → RgbDouble
  fromOklchToRgbDoubleUnbound : LchDouble → RgbDouble
  cielabD50RoundTrips : cmsCIELab → Bool
  cielchD50RoundTrips : LchDouble → Bool
  oklchRoundTrips : LchDouble → Bool

/-- Whether each channel of the device colour lies in `[0, 1]`. -/
def RgbDouble.isInRange (rgb : RgbDouble) : Bool :=
  decide (0 ≤ rgb.red ∧ rgb.red ≤ 1) && decide (0 ≤ rgb.green ∧ rgb.green ≤ 1) &&
    decide (0 ≤ rgb.blue ∧ rgb.blue ≤ 1)

/-- Modelled from the spec: the body of `RgbColorSpace::isCielabD50InGamut` is
not among the sources.  The spec: "returns true iff the color, after conversion
to device RGB through the profile, round-trips within tolerance and each RGB
channel lies in `[0,1]`.  Lightness outside `[0,100]` (Cielab) is always
out-of-gamut by definition, independent of profile."  The class documentation
in `rgbcolorspace.h`: "The maximum accepted Cielch-D50/Cielab-D50 lightness
range is 0 to 100 ... Values outside of this range are considered out-of-gamut,
even if the profile itself would accept them." -/
def RgbColorSpace.isCielabD50InGamut (space : RgbColorSpace) (lab : cmsCIELab) : Bool :=
  if lab.L < 0 ∨ 100 < lab.L then false
  else
    space.cielabD50RoundTrips lab && (space.fromCielabD50ToRgbDoubleUnbound lab).isInRange

/-- Modelled from the spec: the body of `RgbColorSpace::isCielchD50InGamut` is
not among the sources.  As `isCielabD50InGamut`, and in addition: "Chroma
greater than the profile's recorded maximum chroma bound is rejected as a
fast-path optimization before invoking the expensive profile transform." -/
def RgbColorSpace.isCielchD50InGamut (space : RgbColorSpace) (lch : LchDouble) : Bool :=
  if lch.l < 0 ∨ 100 < lch.l then false
  else if space.profileMaximumCielchD50Chroma < lch.c then false
  else
    space.cielchD50RoundTrips lch && (space.fromCielchD50ToRgbDoubleUnbound lch).isInRange

/-- Modelled from the spec: the body of `RgbColorSpace::isOklchInGamut` is not
among the sources.  The spec states the round-trip and channel test and the
chroma bound for it, and no lightness range. -/
def RgbColorSpace.isOklchInGamut (space : RgbColorSpace) (lch : LchDouble) : Bool :=
  if space.profileMaximumOklchChroma < lch.c then false
  else
    space.oklchRoundTrips lch && (space.fromOklchToRgbDoubleUnbound lch).isInRange

/-- The tuning constants of the bisection, which the spec leaves to the
implementation: the fixed number of iterations and the width below which the
search stops. -/
structure BisectionTuning where
  iterations : Nat
  tolerance : ℚ

/-- Modelled from the spec: the search loop of the reducer is not among the
sources.  The spec: "binary search on chroma ... using `isXxxInGamut` as the
oracle.  Terminates after a fixed number of bisection iterations or once the
search interval width falls below a numeric tolerance.  Returns ... the lower
bound of the final interval".  `oracle c` is the gamut test at chroma `c` with
hue and lightness held fixed. -/
def bisectChroma (oracle : ℚ → Bool) (tolerance : ℚ) : Nat → ℚ → ℚ → ℚ
  | 0, lower, _ => lower
  | n + 1, lower, upper =>
      if upper - lower < tolerance then lower
      else
        let candidate := (lower + upper) / 2
        if oracle candidate then bisectChroma oracle tolerance n candidate upper
        else bisectChroma oracle tolerance n lower candidate

/-- Modelled from the spec: the bodies of
`RgbColorSpace::reduceCielchD50ChromaToFitIntoGamut` and
`RgbColorSpace::reduceOklchChromaToFitIntoGamut` are not among the sources; this
is their common algorithm over the oracle and the maximum chroma of the space.
The spec: "Precondition: none -- works correctly whether or not the input is
already in gamut (in that case it returns input essentially unchanged, at most
with chroma clamped to ≥0).  Algorithm: binary search on chroma in
`[0, currentChroma]` (or `[0, profileMaximumChroma]` if current chroma already
exceeds it), holding hue and lightness fixed". -/
def reduceChromaToFitIntoGamut (isInGamut : LchDouble → Bool) (maximumChroma : ℚ)
    (tuning : BisectionTuning) (color : LchDouble) : LchDouble :=
  let referenceColor : LchDouble := { color with c := max 0 (min color.c maximumChroma) }
  if isInGamut referenceColor then referenceColor
  else
    { referenceColor with
      c := bisectChroma (fun c => isInGamut { referenceColor with c := c })
             tuning.tolerance tuning.iterations 0 referenceColor.c }

/-- The reducer for Cielch-D50: the oracle is `isCielchD50InGamut`, the bound
is `profileMaximumCielchD50Chroma`. -/
def RgbColorSpace.reduceCielchD50ChromaToFitIntoGamut (space : RgbColorSpace)
    (tuning : BisectionTuning) (cielchD50color : LchDouble) : LchDouble :=
  reduceChromaToFitIntoGamut space.isCielchD50InGamut space.profileMaximumCielchD50Chroma
    tuning cielchD50color

/-- The reducer for Oklch: the oracle is `isOklchInGamut`, the bound is
`profileMaximumOklchChroma`. -/
def RgbColorSpace.reduceOklchChromaToFitIntoGamut (space : RgbColorSpace)
    (tuning : BisectionTuning) (oklchColor : LchDouble) : LchDouble :=
  reduceChromaToFitIntoGamut space.isOklchInGamut space.profileMaximumOklchChroma
    tuning oklchColor

/-- A sample profile for concrete evaluation: chroma bounds 150 and 2; the
grey axis maps to equal channels, chroma raises the red channel; every colour
round-trips. -/
def sampleColorSpace : RgbColorSpace where
  profileMaximumCielchD50Chroma := 150
  profileMaximumOklchChroma := 2
  fromCielabD50ToRgbDoubleUnbound := fun lab => ⟨lab.L / 100 + lab.a / 200, lab.L / 100, lab.L / 100⟩
  fromCielchD50ToRgbDoubleUnbound := fun lch => ⟨lch.l / 100 + lch.c / 200, lch.l / 100, lch.l / 100⟩
  fromOklchToRgbDoubleUnbound := fun lch => ⟨lch.l + lch.c, lch.l, lch.l⟩
  cielabD50RoundTrips := fun _ => true
  cielchD50RoundTrips := fun _ => true
  oklchRoundTrips := fun _ => true

/-! ## GenericColor: constructors and reinterpretation -/

/-- The LittleCMS type `cmsCIEXYZ`. -/
structure cmsCIEXYZ where
  X : ℚ
  Y : ℚ
  Z : ℚ
  deriving DecidableEq

/-- The matrix type `Trio` (declared in `helpermath.h`, which is not among the
sources): three rows and one column of doubles.  An entry is read as
`init row column`, as `init(row, column)` in the C++ code. -/
abbrev Trio := Fin 3 → Fin 1 → ℚ

/-- Modelled from the spec: the body of `createMatrix` (`helpermath.h`) is not
among the sources; this is its instance `createMatrix<1, 3, double>`.  The
spec: "returns the first three components as a 3×1 matrix, column-major, in
original order".  The test `testConstructorWithTrio` builds a `Trio` with it
and reads the three arguments back from rows 0, 1, 2 of column 0. -/
def createMatrix_1_3 (v0 v1 v2 : ℚ) : Trio :=
  fun row _ => ![v0, v1, v2] row

/-- Constructor `GenericColor::GenericColor(const Trio &init)`. -/
def GenericColor.ofTrio (init : Trio) : GenericColor :=
  { first := init 0 0, second := init 1 0, third := init 2 0, fourth := 0 }

/-- Constructor `GenericColor::GenericColor(const cmsCIELab &init)`. -/
def GenericColor.ofCmsCIELab (init : cmsCIELab) : GenericColor :=
  { first := init.L, second := init.a, third := init.b, fourth := 0 }

/-- Constructor `GenericColor::GenericColor(const cmsCIEXYZ &init)`. -/
def GenericColor.ofCmsCIEXYZ (init : cmsCIEXYZ) : GenericColor :=
  { first := init.X, second := init.Y, third := init.Z, fourth := 0 }

/-- Constructor `GenericColor::GenericColor(v1, v2, v3)`. -/
def GenericColor.ofThree (v1 v2 v3 : ℚ) : GenericColor :=
  { first := v1, second := v2, third := v3, fourth := 0 }

/-- Constructor `GenericColor::GenericColor(v1, v2, v3, v4)`. -/
def GenericColor.ofFour (v1 v2 v3 v4 : ℚ) : GenericColor :=
  { first := v1, second := v2, third := v3, fourth := v4 }

/-- The defaulted constructor `GenericColor() = default`: every member takes
its default member initializer. -/
def GenericColor.default : GenericColor := {}

/-- The values `first`, `second`, `third` as `Trio` (`GenericColor::toTrio`). -/
def GenericColor.toTrio (g : GenericColor) : Trio :=
  createMatrix_1_3 g.first g.second g.third

/-- Type conversion `GenericColor::reinterpretAsXyzToCmsciexyz`. -/
def GenericColor.reinterpretAsXyzToCmsciexyz (g : GenericColor) : cmsCIEXYZ :=
  ⟨g.first, g.second, g.third⟩

/-- Type conversion `GenericColor::reinterpretAsLabToCmscielab`. -/
def GenericColor.reinterpretAsLabToCmscielab (g : GenericColor) : cmsCIELab :=
  ⟨g.first, g.second, g.third⟩

/-! ## Predicates on the conversion table -/

/-- Whether the colour space is one of the two XYZ spaces. -/
def ColorSpace.isXyz : ColorSpace → Bool
  | .XyzD50 => true
  | .XyzD65 => true
  | _ => false

/-- Whether the table has an edge between the two spaces, in either
direction. -/
def hasEdgeBetween (a b : ColorSpace) : Bool :=
  conversionList.any (fun e =>
    (decide (e.«from» = a) && decide (e.«to» = b)) ||
      (decide (e.«from» = b) && decide (e.«to» = a)))

/-! ## Qt and C library helpers -/

/-- The Qt template `qBound(min, val, max)`, which is
`qMax(min, qMin(max, val))`. -/
def qBound {α : Type} [LinearOrder α] (min val max : α) : α :=
  Max.max min (Min.min max val)

/-- The C library function `fmod`: `x - n * y`, where `n` is the quotient
`x / y` truncated toward zero, so that the result has the sign of `x` and a
magnitude below that of `y`.  On doubles `fmod` is exact: this value is a
double whenever `x` and `y` are. -/
def fmod (x y : ℚ) : ℚ :=
  x - y * ((if 0 ≤ x / y then ⌊x / y⌋ else ⌈x / y⌉ : ℤ) : ℚ)

/-! ## IEEE 754 binary64 arithmetic -/

/-- Rounding of a rational to the nearest integer, a tie going to the even
neighbour. -/
def roundHalfEven (x : ℚ) : ℤ :=
  if x - ⌊x⌋ < 1 / 2 then ⌊x⌋
  else if 1 / 2 < x - ⌊x⌋ then ⌊x⌋ + 1
  else if ⌊x⌋ % 2 = 0 then ⌊x⌋ else ⌊x⌋ + 1

/-- The binary exponent of the binary64 grid around `q`: that of `q` itself
(`2 ^ e ≤ |q| < 2 ^ (e + 1)`), and -1022 in the subnormal range. -/
def doubleExponent (q : ℚ) : ℤ :=
  max (Int.log 2 |q|) (-1022)

/-- The result of a C++ `double` operation whose exact result is `q`: IEEE 754
binary64 rounding to nearest, ties to even, that is the nearest multiple of
`2 ^ (doubleExponent q - 52)` (a significand of 53 bits).  Overflow to
infinity is not modelled: the exponent is not bounded above. -/
def roundToDouble (q : ℚ) : ℚ :=
  (roundHalfEven (q * 2 ^ (52 - doubleExponent q)) : ℚ) / 2 ^ (52 - doubleExponent q)

/-! ## MultiSpinBoxSection -/

/-- The values of a C++ `double` that is only stored and compared, never
computed with: not-a-number (`none`), or a number of the extended line, that
is minus infinity (`⊥`), a finite value or plus infinity (`⊤`).  The two zeros
are not told apart. -/
abbrev SectionDouble := Option (WithBot (WithTop ℚ))

/-- The finite value `x` as a `double`. -/
def SectionDouble.finite (x : ℚ) : SectionDouble :=
  some ((x : WithTop ℚ) : WithBot (WithTop ℚ))

/-- The C++ comparison `a < b` of doubles: false when an operand is
not-a-number. -/
def SectionDouble.less : SectionDouble → SectionDouble → Bool
  | some x, some y => decide (x < y)
  | _, _ => false

/-- The C++ comparison `a <= b` of doubles: false when an operand is
not-a-number. -/
def SectionDouble.lessOrEqual : SectionDouble → SectionDouble → Bool
  | some x, some y => decide (x ≤ y)
  | _, _ => false

/-- The Qt template `qMax(a, b)` on doubles, which is `(a < b) ? b : a`. -/
def qMaxDouble (a b : SectionDouble) : SectionDouble :=
  if SectionDouble.less a b then b else a

/-- The private data of `MultiSpinBoxSection` (`multispinboxsection_p.h` is not
among the sources; the members are those `multispinboxsection.cpp` reads and
writes through `d_pointer`). -/
structure MultiSpinBoxSectionPrivate where
  m_decimals : Int
  m_isWrapping : Bool
  m_maximum : SectionDouble
  m_minimum : SectionDouble
  m_prefix : String
  m_singleStep : SectionDouble
  m_suffix : String
  deriving DecidableEq

/-- Getter `MultiSpinBoxSection::decimals`. -/
def MultiSpinBoxSectionPrivate.decimals (s : MultiSpinBoxSectionPrivate) : Int :=
  s.m_decimals

/-- Setter `MultiSpinBoxSection::setDecimals`. -/
def MultiSpinBoxSectionPrivate.setDecimals (s : MultiSpinBoxSectionPrivate)
    (newDecimals : Int) : MultiSpinBoxSectionPrivate :=
  { s with m_decimals := qBound 0 newDecimals 323 }

/-- Getter `MultiSpinBoxSection::isWrapping`. -/
def MultiSpinBoxSectionPrivate.isWrapping (s : MultiSpinBoxSectionPrivate) : Bool :=
  s.m_isWrapping

/-- Setter `MultiSpinBoxSection::setWrapping`. -/
def MultiSpinBoxSectionPrivate.setWrapping (s : MultiSpinBoxSectionPrivate)
    (newIsWrapping : Bool) : MultiSpinBoxSectionPrivate :=
  { s with m_isWrapping := newIsWrapping }

/-- Getter `MultiSpinBoxSection::maximum`.  The helper `roundToDigits`
(`helpermath.h`) is not among the sources and is a parameter. -/
def MultiSpinBoxSectionPrivate.maximum (roundToDigits : SectionDouble → Int → SectionDouble)
    (s : MultiSpinBoxSectionPrivate) : SectionDouble :=
  roundToDigits s.m_maximum s.m_decimals

/-- Setter `MultiSpinBoxSection::setMaximum`: the new maximum is stored, and
the minimum is lowered to it if `m_minimum > m_maximum` holds afterwards. -/
def MultiSpinBoxSectionPrivate.setMaximum (s : MultiSpinBoxSectionPrivate)
    (newMaximum : SectionDouble) : MultiSpinBoxSectionPrivate :=
  let s1 := { s with m_maximum := newMaximum }
  if SectionDouble.less s1.m_maximum s1.m_minimum then { s1 with m_minimum := s1.m_maximum }
  else s1

/-- Getter `MultiSpinBoxSection::minimum`.  The helper `roundToDigits`
(`helpermath.h`) is not among the sources and is a parameter. -/
def MultiSpinBoxSectionPrivate.minimum (roundToDigits : SectionDouble → Int → SectionDouble)
    (s : MultiSpinBoxSectionPrivate) : SectionDouble :=
  roundToDigits s.m_minimum s.m_decimals

/-- Setter `MultiSpinBoxSection::setMinimum`: the new minimum is stored, and
the maximum is raised to it if `m_maximum < m_minimum` holds afterwards. -/
def MultiSpinBoxSectionPrivate.setMinimum (s : MultiSpinBoxSectionPrivate)
    (newMinimum : SectionDouble) : MultiSpinBoxSectionPrivate :=
  let s1 := { s with m_minimum := newMinimum }
  if SectionDouble.less s1.m_maximum s1.m_minimum then { s1 with m_maximum := s1.m_minimum }
  else s1

/-- Setter `MultiSpinBoxSection::setPrefix`. -/
def MultiSpinBoxSectionPrivate.setPrefix (s : MultiSpinBoxSectionPrivate)
    (text : String) : MultiSpinBoxSectionPrivate :=
  { s with m_prefix := text }

/-- Setter `MultiSpinBoxSection::setSingleStep`. -/
def MultiSpinBoxSectionPrivate.setSingleStep (s : MultiSpinBoxSectionPrivate)
    (newSingleStep : SectionDouble) : MultiSpinBoxSectionPrivate :=
  { s with m_singleStep := qMaxDouble (SectionDouble.finite 0) newSingleStep }

/-- Setter `MultiSpinBoxSection::setSuffix`. -/
def MultiSpinBoxSectionPrivate.setSuffix (s : MultiSpinBoxSectionPrivate)
    (text : String) : MultiSpinBoxSectionPrivate :=
  { s with m_suffix := text }

/-- A call of one of the setters of `MultiSpinBoxSection`, with its
argument. -/
inductive SectionSetter where
  | decimals (newDecimals : Int)
  | wrapping (newIsWrapping : Bool)
  | maximum (newMaximum : SectionDouble)
  | minimum (newMinimum : SectionDouble)
  | prefixText (text : String)
  | singleStep (newSingleStep : SectionDouble)
  | suffixText (text : String)

/-- The state after the setter call. -/
def SectionSetter.run (s : MultiSpinBoxSectionPrivate) :
    SectionSetter → MultiSpinBoxSectionPrivate
  | SectionSetter.decimals n => s.setDecimals n
  | SectionSetter.wrapping b => s.setWrapping b
  | SectionSetter.maximum x => s.setMaximum x
  | SectionSetter.minimum x => s.setMinimum x
  | SectionSetter.prefixText t => MultiSpinBoxSectionPrivate.setPrefix s t
  | SectionSetter.singleStep x => s.setSingleStep x
  | SectionSetter.suffixText t => MultiSpinBoxSectionPrivate.setSuffix s t

/-- The state after a sequence of setter calls, first call first. -/
def runSetters (s : MultiSpinBoxSectionPrivate) (calls : List SectionSetter) :
    MultiSpinBoxSectionPrivate :=
  calls.foldl SectionSetter.run s

/-- Whether the call passes a number, not not-a-number, when it is a call of
`setMaximum` or `setMinimum`; true for a call of another setter. -/
def SectionSetter.boundIsNumber : SectionSetter → Bool
  | SectionSetter.maximum x => x.isSome
  | SectionSetter.minimum x => x.isSome
  | _ => true

/-- Whether the C++ comparison `m_minimum <= m_maximum` of the stored members
holds. -/
def MultiSpinBoxSectionPrivate.isOrdered (s : MultiSpinBoxSectionPrivate) : Bool :=
  SectionDouble.lessOrEqual s.m_minimum s.m_maximum

/-- A sample section state for concrete evaluation. -/
def sampleSection : MultiSpinBoxSectionPrivate :=
  { m_decimals := 2, m_isWrapping := false, m_maximum := SectionDouble.finite 100,
    m_minimum := SectionDouble.finite 0, m_prefix := "",
    m_singleStep := SectionDouble.finite 1, m_suffix := "" }

/-! ## GradientImageParameters -/

/-- A colour in cylindrical coordinates with an alpha channel (`LchaDouble`;
`lchadouble.h` is not among the sources; the members are those
`gradientimageparameters.cpp` uses, in the order of `LchaDouble{l, c, h, a}`). -/
structure LchaDouble where
  l : ℚ
  c : ℚ
  h : ℚ
  a : ℚ
  deriving DecidableEq

/-- Normalizes the value and bounds it to the LCH colour space
(`GradientImageParameters::completlyNormalizedAndBounded`).  The components
are finite doubles.  The additions `color.h + 180` and `result.h += 360` round
to binary64; the multiplication by -1, `fmod`, `qBound` and the comparisons
are exact on doubles. -/
def completlyNormalizedAndBounded (color : LchaDouble) : LchaDouble :=
  let c := if color.c < 0 then color.c * (-1) else color.c
  let h0 :=
    if color.c < 0 then fmod (roundToDouble (color.h + 180)) 360 else fmod color.h 360
  let h := if h0 < 0 then roundToDouble (h0 + 360) else h0
  { l := qBound 0 color.l 100, c := c, h := h, a := qBound 0 color.a 1 }

/-- The parameters of a gradient image (`GradientImageParameters`;
`gradientimageparameters.h` is not among the sources; the members are those
`gradientimageparameters.cpp` reads and writes, without the cached image
`m_image`).  The shared pointer `rgbColorSpace` is `none` when it is null. -/
structure GradientImageParameters where
  m_devicePixelRatioF : ℚ
  m_firstColorCorrected : LchaDouble
  m_gradientLength : Int
  m_gradientThickness : Int
  rgbColorSpace : Option RgbColorSpace
  m_secondColorCorrectedAndAltered : LchaDouble

/-- Updates `m_secondColorCorrectedAndAltered`
(`GradientImageParameters::updateSecondColor`).  The subtraction inside
`qAbs`, `+= 360` and `-= 360` round to binary64. -/
def GradientImageParameters.updateSecondColor (p : GradientImageParameters) :
    GradientImageParameters :=
  let second := completlyNormalizedAndBounded p.m_secondColorCorrectedAndAltered
  if |roundToDouble (p.m_firstColorCorrected.h - second.h)| > 180 then
    if p.m_firstColorCorrected.h > second.h then
      { p with
        m_secondColorCorrectedAndAltered := { second with h := roundToDouble (second.h + 360) } }
    else
      { p with
        m_secondColorCorrectedAndAltered := { second with h := roundToDouble (second.h - 360) } }
  else
    { p with m_secondColorCorrectedAndAltered := second }

/-- The colour that the gradient has at a given position
(`GradientImageParameters::colorFromValue`).  In each component the
subtraction, the multiplication and the addition round to binary64, in this
order. -/
def GradientImageParameters.colorFromValue (p : GradientImageParameters) (value : ℚ) :
    LchaDouble :=
  { l := roundToDouble (p.m_firstColorCorrected.l
      + roundToDouble (roundToDouble
          (p.m_secondColorCorrectedAndAltered.l - p.m_firstColorCorrected.l) * value)),
    c := roundToDouble (p.m_firstColorCorrected.c
      + roundToDouble (roundToDouble
          (p.m_secondColorCorrectedAndAltered.c - p.m_firstColorCorrected.c) * value)),
    h := roundToDouble (p.m_firstColorCorrected.h
      + roundToDouble (roundToDouble
          (p.m_secondColorCorrectedAndAltered.h - p.m_firstColorCorrected.h) * value)),
    a := roundToDouble (p.m_firstColorCorrected.a
      + roundToDouble (roundToDouble
          (p.m_secondColorCorrectedAndAltered.a - p.m_firstColorCorrected.a) * value)) }

/-- The formula of `colorFromValue` in exact arithmetic, without the rounding
of the three operations.  It stands for the colour values in the event list of
`render`, where only the order of the events is in question. -/
def GradientImageParameters.colorFromValueExact (p : GradientImageParameters) (value : ℚ) :
    LchaDouble :=
  { l := p.m_firstColorCorrected.l
      + (p.m_secondColorCorrectedAndAltered.l - p.m_firstColorCorrected.l) * value,
    c := p.m_firstColorCorrected.c
      + (p.m_secondColorCorrectedAndAltered.c - p.m_firstColorCorrected.c) * value,
    h := p.m_firstColorCorrected.h
      + (p.m_secondColorCorrectedAndAltered.h - p.m_firstColorCorrected.h) * value,
    a := p.m_firstColorCorrected.a
      + (p.m_secondColorCorrectedAndAltered.a - p.m_firstColorCorrected.a) * value }

/-- What `GradientImageParameters::render` does towards its collaborators, in
order: a query of the abort flag with its answer, a conversion of pixel `i` by
`fromCielchD50ToQRgbBound` with its argument, the delivery of the image. -/
inductive RenderEvent where
  | shouldAbort (answer : Bool)
  | fromCielchD50ToQRgbBound (i : Nat) (cielchD50 : LchDouble)
  | deliverInterlacingPass
  deriving DecidableEq

/-- The surroundings of one call of `render`: whether the variant holds
gradient parameters, the abort flag of the callback object as a function of
the number of events the call has performed so far, and whether the full-size
image turns out to be a null image. -/
structure RenderCall where
  canConvert : Bool
  shouldAbort : Nat → Bool
  resultIsNull : Bool

/-- The pixel loop of `render`: for `i` from 0 below `m_gradientLength`, the
colour at position `(i + 0.5) / m_gradientLength` is converted by
`fromCielchD50ToQRgbBound`.  The colour values in the events are those of the
formula in exact arithmetic. -/
def GradientImageParameters.pixelLoop (p : GradientImageParameters) : List RenderEvent :=
  (List.range p.m_gradientLength.toNat).map (fun (i : Nat) =>
    let color := p.colorFromValueExact (((i : ℚ) + 1 / 2) / (p.m_gradientLength : ℚ))
    RenderEvent.fromCielchD50ToQRgbBound i ⟨color.l, color.c, color.h⟩)

/-- Render an image (`GradientImageParameters::render`), as the list of its
events.  Painting into the local images is not an event.  The abort flag is
read before the pixel loop (no event so far), after it (one query and
`m_gradientLength` conversions so far) and before the delivery (one more
query so far). -/
def GradientImageParameters.render (call : RenderCall) (p : GradientImageParameters) :
    List RenderEvent :=
  if !call.canConvert then []
  else if p.rgbColorSpace.isNone then []
  else if call.shouldAbort 0 then [RenderEvent.shouldAbort true]
  else
    let loop := RenderEvent.shouldAbort false :: p.pixelLoop
    if call.shouldAbort loop.length then loop ++ [RenderEvent.shouldAbort true]
    else if call.resultIsNull then loop ++ [RenderEvent.shouldAbort false]
    else if call.shouldAbort (loop.length + 1) then
      loop ++ [RenderEvent.shouldAbort false, RenderEvent.shouldAbort true]
    else
      loop ++ [RenderEvent.shouldAbort false, RenderEvent.shouldAbort false,
        RenderEvent.deliverInterlacingPass]

/-- Whether the event is a pixel conversion. -/
def RenderEvent.isConversion : RenderEvent → Bool
  | RenderEvent.fromCielchD50ToQRgbBound _ _ => true
  | _ => false

/-- Whether no two pixel conversions follow each other directly in the list of
events. -/
def noAdjacentConversions : List RenderEvent → Bool
  | e1 :: e2 :: rest =>
      !(e1.isConversion && e2.isConversion) && noAdjacentConversions (e2 :: rest)
  | _ => true

/-- The number of pixel conversions in the list of events. -/
def conversionCount (events : List RenderEvent) : Nat :=
  (events.filter RenderEvent.isConversion).length

/-- Sample gradient parameters for concrete evaluation: from hue 350 to hue
370 over three pixels. -/
def sampleGradient : GradientImageParameters :=
  { m_devicePixelRatioF := 1, m_firstColorCorrected := ⟨50, 20, 350, 1⟩,
    m_gradientLength := 3, m_gradientThickness := 2,
    rgbColorSpace := some sampleColorSpace,
    m_secondColorCorrectedAndAltered := ⟨60, 30, 370, 1⟩ }

/-- A sample colour whose hue is the double `-2 ^ (-70)`, a tiny negative
angle. -/
def sampleTinyNegativeHue : LchaDouble := ⟨50, 10, -(1 / 2 ^ 70), 1⟩

/-- A sample colour of negative chroma whose hue is the double `2 ^ (-70)`. -/
def sampleTinyHueNegativeChroma : LchaDouble := ⟨50, -3, 1 / 2 ^ 70, 1⟩

/-- Sample gradient parameters as the setters store them: first hue 350, stored
second colour of chroma 30 and hue `2 ^ (-60)`. -/
def sampleTinyHueGradient : GradientImageParameters :=
  { m_devicePixelRatioF := 1, m_firstColorCorrected := ⟨50, 20, 350, 1⟩,
    m_gradientLength := 3, m_gradientThickness := 2,
    rgbColorSpace := some sampleColorSpace,
    m_secondColorCorrectedAndAltered := ⟨60, 30, 1 / 2 ^ 60, 1⟩ }

/-- Sample gradient parameters as the setters store them: first hue
`180 + 2 ^ (-45)`, stored second colour of chroma 30 and hue
`2 ^ (-45) - 2 ^ (-60)`; the two hues are `180 + 2 ^ (-60)` apart. -/
def sampleHalfTurnGradient : GradientImageParameters :=
  { m_devicePixelRatioF := 1, m_firstColorCorrected := ⟨50, 20, 180 + 1 / 2 ^ 45, 1⟩,
    m_gradientLength := 3, m_gradientThickness := 2,
    rgbColorSpace := some sampleColorSpace,
    m_secondColorCorrectedAndAltered := ⟨60, 30, 1 / 2 ^ 45 - 1 / 2 ^ 60, 1⟩ }

/-- Sample gradient parameters as the setters store them: first lightness 1,
second lightness `2 ^ (-60)`. -/
def sampleCancellationGradient : GradientImageParameters :=
  { m_devicePixelRatioF := 1, m_firstColorCorrected := ⟨1, 0, 0, 1⟩,
    m_gradientLength := 3, m_gradientThickness := 2,
    rgbColorSpace := some sampleColorSpace,
    m_secondColorCorrectedAndAltered := ⟨1 / 2 ^ 60, 0, 0, 1⟩ }

/-- A sample call of `render`: the abort is requested once the first pixel has
been converted, that is after two events. -/
def sampleRenderCall : RenderCall :=
  { canConvert := true, shouldAbort := fun events => decide (2 ≤ events),
    resultIsNull := false }

/-! ## The conversion graph as a tree -/

/-- The position of a colour space on the line
CielchD50 - CielabD50 - XyzD50 - XyzD65 - OklabD65 - OklchD65. -/
def ColorSpace.position : ColorSpace → Nat
  | .CielchD50 => 0
  | .CielabD50 => 1
  | .XyzD50 => 2
  | .XyzD65 => 3
  | .OklabD65 => 4
  | .OklchD65 => 5

/-- The spaces a path visits: its start, then the target of each edge. -/
def pathVertices (a : ColorSpace) (p : List Conversion) : List ColorSpace :=
  a :: p.map (fun e => e.«to»)

/-- All directed paths of `conversionList` from `a` to `b` that visit no space
of `visited` and no space twice, found by exhaustive search; the first
argument bounds the number of edges. -/
def simplePathsFrom : Nat → List ColorSpace → ColorSpace → ColorSpace → List (List Conversion)
  | 0, _, _, _ => []
  | fuel + 1, visited, a, b =>
      (if a = b then [[]] else []) ++
        (conversionsFrom a).flatMap (fun e =>
          if e.«to» ∈ visited then []
          else (simplePathsFrom fuel (e.«to» :: visited) e.«to» b).map (fun p => e :: p))

/-- The edge of the table that leads from `a` one position towards `b` on the
line, if there is one. -/
def stepToward (a b : ColorSpace) : Option Conversion :=
  conversionList.find? (fun e =>
    decide (e.«from» = a) &&
      (if a.position < b.position then decide (e.«to».position = a.position + 1)
       else decide (e.«to».position + 1 = a.position)))

/-- The edges walked from `a` towards `b` along the line, until `b` is reached;
the first argument bounds the number of edges. -/
def walkToward : Nat → ColorSpace → ColorSpace → List Conversion
  | 0, _, _ => []
  | fuel + 1, a, b =>
      if a = b then []
      else
        match stepToward a b with
        | some e => e :: walkToward fuel e.«to» b
        | none => []

/-- The directed path from `a` to `b` along the line. -/
def pathBetween (a b : ColorSpace) : List Conversion :=
  walkToward 5 a b

/-- The composition of the edge functions along a path, applied to a value. -/
def composeAlong (apply : ConversionFunction → GenericColor → GenericColor)
    (p : List Conversion) (v : GenericColor) : GenericColor :=
  p.foldl (fun acc e => apply e.conversionFunction acc) v

/-- A traversal in a freely chosen order: the edges of `order` are used one
after the other, each to insert the value of its target, computed from the
value stored for its source.  An edge is usable when it is in the table, its
source is in the mapping and its target is not; `none` when an edge is not
usable. -/
def insertInOrder (apply : ConversionFunction → GenericColor → GenericColor) :
    ColorHash → List Conversion → Option ColorHash
  | values, [] => some values
  | values, e :: rest =>
      if e ∈ conversionList ∧ values.contains e.«from» = true ∧ values.contains e.«to» = false then
        insertInOrder apply
          (values.insert e.«to» (apply e.conversionFunction (values.value e.«from»))) rest
      else none

/-- The loop of the breadth-first traversal over the conversions available at
one node: a target that is not in the mapping is inserted and appended to the
spaces to visit later. -/
def enqueueConversions (apply : ConversionFunction → GenericColor → GenericColor)
    (currentValue : GenericColor) :
    List Conversion → ColorHash × List ColorSpace → ColorHash × List ColorSpace
  | [], state => state
  | conversion :: rest, (values, later) =>
      if values.contains conversion.«to» then
        enqueueConversions apply currentValue rest (values, later)
      else
        enqueueConversions apply currentValue rest
          (values.insert conversion.«to» (apply conversion.conversionFunction currentValue),
            later ++ [conversion.«to»])

/-- Modelled from the spec: a breadth-first variant of the traversal ("breadth/
depth traversal starting at `sourceSpace`"): the spaces are visited in the
order in which they were inserted.  The first argument bounds the number of
visits. -/
def breadthFirstConversions (apply : ConversionFunction → GenericColor → GenericColor) :
    Nat → List ColorSpace → ColorHash → ColorHash
  | 0, _, values => values
  | _ + 1, [], values => values
  | fuel + 1, space :: queue, values =>
      match enqueueConversions apply (values.value space) (conversionsFrom space)
          (values, queue) with
      | (values', queue') => breadthFirstConversions apply fuel queue' values'

/-- The mapping of all conversions computed breadth-first. -/
def allConversionsBreadthFirst (apply : ConversionFunction → GenericColor → GenericColor)
    (space : ColorSpace) (value : GenericColor) : ColorHash :=
  breadthFirstConversions apply ColorSpace.all.length [space] (ColorHash.insert [] space value)

/-! ## Polar and Cartesian coordinates -/

/-- Modelled from the spec: the first three components of a colour, as real
numbers.  The bodies of `AbsoluteColor::fromPolarToCartesian` and
`AbsoluteColor::fromCartesianToPolar` are not among the sources; the spec
gives their formulas, which are taken here in exact real arithmetic. -/
structure RealColor where
  first : ℝ
  second : ℝ
  third : ℝ

/-- Modelled from the spec: the two-argument arc tangent `atan2(y, x)`, the
angle in `(-π, π]` of the point `(x, y)`. -/
noncomputable def atan2 (y x : ℝ) : ℝ :=
  Complex.arg ⟨x, y⟩

/-- Modelled from the spec: polar to Cartesian, `a = c·cos(h)` and
`b = c·sin(h)` with the hue `h` in degrees; the lightness is kept. -/
noncomputable def AbsoluteColor.fromPolarToCartesian (value : RealColor) : RealColor :=
  { first := value.first,
    second := value.second * Real.cos (value.third * Real.pi / 180),
    third := value.second * Real.sin (value.third * Real.pi / 180) }

/-- Modelled from the spec: Cartesian to polar, the chroma `√(a² + b²)` and the
hue `atan2(b, a)` in degrees, normalized into `[0°, 360°)` by adding 360 to a
negative angle; the lightness is kept. -/
noncomputable def AbsoluteColor.fromCartesianToPolar (value : RealColor) : RealColor :=
  let hue := atan2 value.third value.second * 180 / Real.pi
  { first := value.first,
    second := Real.sqrt (value.second ^ 2 + value.third ^ 2),
    third := if hue < 0 then hue + 360 else hue }

/-! ## Helper lemmas -/

/-- Rounding to the nearest integer moves a value by at most one half. -/
theorem roundHalfEven_sub_le (x : ℚ) : |(roundHalfEven x : ℚ) - x| ≤ 1 / 2 := by
  have h1 : (⌊x⌋ : ℚ) ≤ x := Int.floor_le x
  have h2 : x < ⌊x⌋ + 1 := Int.lt_floor_add_one x
  unfold roundHalfEven
  rw [abs_le]
  split_ifs with ha hb hc
  · constructor <;> linarith
  · push_cast; constructor <;> linarith
  · constructor <;> linarith
  · push_cast; constructor <;> linarith

/-- A value less than one half away from an integer is rounded to it. -/
theorem roundHalfEven_eq_of_near (x : ℚ) (m : ℤ) (h : |x - m| < 1 / 2) :
    roundHalfEven x = m := by
  rw [abs_lt] at h
  obtain ⟨h1, h2⟩ := h
  unfold roundHalfEven
  by_cases hm : (m : ℚ) ≤ x
  · have hf : ⌊x⌋ = m := by
      rw [Int.floor_eq_iff]; constructor <;> linarith
    rw [hf, if_pos (by linarith)]
  · have hm' : x < m := lt_of_not_le hm
    have hf : ⌊x⌋ = m - 1 := by
      rw [Int.floor_eq_iff]; push_cast; constructor <;> linarith
    rw [hf]
    have h3 : ¬ (x - ((m - 1 : ℤ) : ℚ) < 1 / 2) := by push_cast; linarith
    have h4 : 1 / 2 < x - ((m - 1 : ℤ) : ℚ) := by push_cast; linarith
    rw [if_neg h3, if_pos h4]
    ring

/-- The exponent of a value between two consecutive powers of two. -/
theorem doubleExponent_eq (q : ℚ) (e : ℤ) (hlo : (2 : ℚ) ^ e ≤ |q|)
    (hhi : |q| < (2 : ℚ) ^ (e + 1)) (he : -1022 ≤ e) : doubleExponent q = e := by
  have hpos : 0 < |q| := lt_of_lt_of_le (by positivity) hlo
  have h1 : e ≤ Int.log 2 |q| := by
    rw [← Int.zpow_le_iff_le_log (by norm_num) hpos]
    simpa using hlo
  have h2 : Int.log 2 |q| < e + 1 := by
    rw [← Int.lt_zpow_iff_log_lt (by norm_num) hpos]
    simpa using hhi
  unfold doubleExponent
  have h3 : Int.log 2 |q| = e := by omega
  rw [h3]
  exact max_eq_left he

/-- Evaluation of `roundToDouble`: with `2 ^ e ≤ |q| < 2 ^ (e + 1)` and the
scaled value less than one half away from the integer `m`, the result is
`m / 2 ^ (52 - e)`. -/
theorem roundToDouble_eq_of_near (q : ℚ) (e m : ℤ) (hlo : (2 : ℚ) ^ e ≤ |q|)
    (hhi : |q| < (2 : ℚ) ^ (e + 1)) (he : -1022 ≤ e)
    (hm : |q * 2 ^ (52 - e) - m| < 1 / 2) : roundToDouble q = m / 2 ^ (52 - e) := by
  unfold roundToDouble
  rw [doubleExponent_eq q e hlo hhi he, roundHalfEven_eq_of_near _ m hm]

/-- Zero is a double. -/
theorem roundToDouble_zero : roundToDouble 0 = 0 := by
  simp [roundToDouble, roundHalfEven]

/-- The rounding error of a value below `2 ^ (E + 1)` in magnitude is at most
`2 ^ (E - 53)`. -/
theorem roundToDouble_error (q : ℚ) (E : ℤ) (hq : |q| < (2 : ℚ) ^ (E + 1)) (hE : -1022 ≤ E) :
    |roundToDouble q - q| ≤ (2 : ℚ) ^ (E - 53) := by
  by_cases h0 : q = 0
  · subst h0
    rw [roundToDouble_zero]
    simp only [sub_zero, abs_zero]
    positivity
  · have hpos : 0 < |q| := abs_pos.mpr h0
    have hle : doubleExponent q ≤ E := by
      unfold doubleExponent
      apply max_le _ hE
      have : Int.log 2 |q| < E + 1 := by
        rw [← Int.lt_zpow_iff_log_lt (by norm_num) hpos]
        simpa using hq
      omega
    have hs : (0 : ℚ) < 2 ^ (52 - doubleExponent q) := by positivity
    have hr := roundHalfEven_sub_le (q * 2 ^ (52 - doubleExponent q))
    have hdiv : roundToDouble q - q
        = ((roundHalfEven (q * 2 ^ (52 - doubleExponent q)) : ℚ)
            - q * 2 ^ (52 - doubleExponent q)) / 2 ^ (52 - doubleExponent q) := by
      unfold roundToDouble
      field_simp
      ring
    rw [hdiv, abs_div, abs_of_pos hs, div_le_iff₀ hs]
    have hpow : (2 : ℚ) ^ (E - 53) * 2 ^ (52 - doubleExponent q)
        = 2 ^ (E - doubleExponent q - 1) := by
      rw [← zpow_add₀ (by norm_num : (2 : ℚ) ≠ 0)]
      congr 1; ring
    rw [hpow]
    have hhalf : (1 / 2 : ℚ) ≤ 2 ^ (E - doubleExponent q - 1) :=
      calc (1 / 2 : ℚ) = 2 ^ (-1 : ℤ) := by norm_num
        _ ≤ 2 ^ (E - doubleExponent q - 1) :=
          zpow_le_zpow_right₀ (by norm_num) (by omega)
    exact le_trans hr hhalf

/-- The rounding error is at most half a unit of the grid. -/
theorem roundToDouble_error_exponent (q : ℚ) :
    |roundToDouble q - q| ≤ (2 : ℚ) ^ (doubleExponent q - 53) := by
  have hs : (0 : ℚ) < 2 ^ (52 - doubleExponent q) := by positivity
  have hr := roundHalfEven_sub_le (q * 2 ^ (52 - doubleExponent q))
  have hdiv : roundToDouble q - q
      = ((roundHalfEven (q * 2 ^ (52 - doubleExponent q)) : ℚ)
          - q * 2 ^ (52 - doubleExponent q)) / 2 ^ (52 - doubleExponent q) := by
    unfold roundToDouble
    field_simp
    ring
  rw [hdiv, abs_div, abs_of_pos hs, div_le_iff₀ hs]
  have hpow : (2 : ℚ) ^ (doubleExponent q - 53) * 2 ^ (52 - doubleExponent q) = 1 / 2 := by
    rw [← zpow_add₀ (by norm_num : (2 : ℚ) ≠ 0)]
    have : doubleExponent q - 53 + (52 - doubleExponent q) = -1 := by ring
    rw [this]; norm_num
  rw [hpow]
  exact hr

/-- The relative rounding error is at most `2 ^ (-53)`, apart from the
subnormal range. -/
theorem roundToDouble_relative_error (q : ℚ) :
    |roundToDouble q - q| ≤ (2 : ℚ) ^ (-53 : ℤ) * |q| + (2 : ℚ) ^ (-1075 : ℤ) := by
  by_cases h0 : q = 0
  · subst h0
    rw [roundToDouble_zero]
    simp only [sub_zero, abs_zero, mul_zero, zero_add]
    positivity
  · have hpos : 0 < |q| := abs_pos.mpr h0
    have herr := roundToDouble_error_exponent q
    by_cases hlog : -1022 ≤ Int.log 2 |q|
    · have he : doubleExponent q = Int.log 2 |q| := max_eq_left hlog
      have hle : (2 : ℚ) ^ Int.log 2 |q| ≤ |q| := by
        simpa using Int.zpow_log_le_self (b := 2) (by norm_num) hpos
      have hsplit : (2 : ℚ) ^ (doubleExponent q - 53)
          = (2 : ℚ) ^ (-53 : ℤ) * 2 ^ Int.log 2 |q| := by
        rw [he, ← zpow_add₀ (by norm_num : (2 : ℚ) ≠ 0)]
        congr 1; ring
      have h53 : (0 : ℚ) < 2 ^ (-53 : ℤ) := by positivity
      have h1075 : (0 : ℚ) < 2 ^ (-1075 : ℤ) := by positivity
      rw [hsplit] at herr
      nlinarith [mul_le_mul_of_nonneg_left hle h53.le]
    · have he : doubleExponent q = -1022 := max_eq_right (by omega)
      rw [he] at herr
      have h53 : (0 : ℚ) ≤ 2 ^ (-53 : ℤ) * |q| := by positivity
      have : ((-1022 : ℤ) - 53) = -1075 := by norm_num
      rw [this] at herr
      linarith

/-- On an argument smaller in magnitude than the positive divisor, `fmod` is
the identity. -/
theorem fmod_of_abs_lt (x y : ℚ) (hy : 0 < y) (h : |x| < y) : fmod x y = x := by
  rw [abs_lt] at h
  have hq1 : x / y < 1 := (div_lt_one hy).mpr h.2
  have hq2 : -1 < x / y := by
    rw [lt_div_iff₀ hy]; linarith
  unfold fmod
  by_cases hq0 : 0 ≤ x / y
  · have hfloor : ⌊x / y⌋ = 0 := by
      rw [Int.floor_eq_iff]
      exact ⟨by simpa using hq0, by simpa using hq1⟩
    rw [if_pos hq0, hfloor]; simp
  · have hceil : ⌈x / y⌉ = 0 := by
      rw [Int.ceil_eq_iff]
      constructor
      · simpa using hq2
      · simpa using le_of_lt (lt_of_not_le hq0)
    rw [if_neg hq0, hceil]; simp

/-- A non-negative value is rounded to a non-negative integer. -/
theorem roundHalfEven_nonneg (x : ℚ) (h : 0 ≤ x) : 0 ≤ roundHalfEven x := by
  have hf : 0 ≤ ⌊x⌋ := Int.floor_nonneg.mpr h
  unfold roundHalfEven
  split_ifs <;> omega

/-- A value below or at an integer is rounded to an integer below or at it. -/
theorem roundHalfEven_le_of_le (x : ℚ) (m : ℤ) (h : x ≤ m) : roundHalfEven x ≤ m := by
  have h1 : (⌊x⌋ : ℚ) ≤ x := Int.floor_le x
  have hf : ⌊x⌋ ≤ m := by
    have : (⌊x⌋ : ℚ) ≤ m := le_trans h1 h
    exact_mod_cast this
  unfold roundHalfEven
  rcases hf.lt_or_eq with hlt | heq
  · split_ifs <;> omega
  · have : x - ⌊x⌋ < 1 / 2 := by rw [heq]; linarith
    rw [if_pos this, heq]

/-- A value between 0 and 360 is rounded to a double between 0 and 360. -/
theorem roundToDouble_mem_of_mem (q : ℚ) (h0 : 0 ≤ q) (h1 : q ≤ 360) :
    0 ≤ roundToDouble q ∧ roundToDouble q ≤ 360 := by
  rcases h0.lt_or_eq with hpos | hzero
  · have habs : |q| = q := abs_of_pos hpos
    have he : doubleExponent q ≤ 8 := by
      unfold doubleExponent
      apply max_le _ (by norm_num)
      have : Int.log 2 |q| < 9 := by
        rw [← Int.lt_zpow_iff_log_lt (by norm_num) (by rw [habs]; exact hpos), habs]
        norm_num
        linarith
      omega
    obtain ⟨n, hn⟩ : ∃ n : ℕ, 52 - doubleExponent q = (n : ℤ) :=
      ⟨(52 - doubleExponent q).toNat, (Int.toNat_of_nonneg (by omega)).symm⟩
    unfold roundToDouble
    rw [hn, zpow_natCast]
    have hs : (0 : ℚ) < 2 ^ n := by positivity
    constructor
    · apply div_nonneg _ hs.le
      exact_mod_cast roundHalfEven_nonneg _ (mul_nonneg h0 hs.le)
    · rw [div_le_iff₀ hs]
      have hM : q * 2 ^ n ≤ ((360 * 2 ^ n : ℤ) : ℚ) := by
        push_cast
        exact mul_le_mul_of_nonneg_right h1 hs.le
      have := roundHalfEven_le_of_le _ _ hM
      have hc : ((roundHalfEven (q * 2 ^ n) : ℤ) : ℚ) ≤ ((360 * 2 ^ n : ℤ) : ℚ) := by
        exact_mod_cast this
      push_cast at hc
      exact hc
  · subst hzero
    rw [roundToDouble_zero]
    norm_num

/-- A loop whose recursive call succeeds at least as often succeeds with the
same result. -/
theorem visitConversions_mono (apply : ConversionFunction → GenericColor → GenericColor)
    (rec1 rec2 : Traversal → ColorSpace → Option Traversal)
    (hrec : ∀ t s r, rec1 t s = some r → rec2 t s = some r)
    (currentValue : GenericColor) (l : List Conversion) :
    ∀ t r, visitConversions apply rec1 currentValue l t = some r →
      visitConversions apply rec2 currentValue l t = some r := by
  induction l with
  | nil => intro t r h; simpa [visitConversions] using h
  | cons c rest ih =>
    intro t r h
    unfold visitConversions at h ⊢
    by_cases hc : t.values.contains c.«to» = true
    · rw [if_pos hc] at h ⊢
      exact ih t r h
    · rw [if_neg hc] at h ⊢
      cases h1 : rec1 ⟨t.values.insert c.«to» (apply c.conversionFunction currentValue),
          t.calls⟩ c.«to» with
      | none => rw [h1] at h; simp at h
      | some t1 =>
        rw [h1] at h
        rw [hrec _ _ _ h1]
        exact ih t1 r h

/-- A successful traversal is not changed by a larger recursion bound. -/
theorem addDirectConversionsRecursivly_succ
    (apply : ConversionFunction → GenericColor → GenericColor) (fuel : Nat) :
    ∀ t s r, addDirectConversionsRecursivly apply fuel t s = some r →
      addDirectConversionsRecursivly apply (fuel + 1) t s = some r := by
  induction fuel with
  | zero => intro t s r h; simp [addDirectConversionsRecursivly] at h
  | succ n ih =>
    intro t s r h
    rw [addDirectConversionsRecursivly] at h ⊢
    exact visitConversions_mono apply _ _ ih _ _ _ _ h

/-- A successful traversal is not changed by any larger recursion bound. -/
theorem addDirectConversionsRecursivly_add
    (apply : ConversionFunction → GenericColor → GenericColor) (fuel k : Nat)
    (t : Traversal) (s : ColorSpace) (r : Traversal)
    (h : addDirectConversionsRecursivly apply fuel t s = some r) :
    addDirectConversionsRecursivly apply (fuel + k) t s = some r := by
  induction k with
  | zero => simpa using h
  | succ k ih => exact addDirectConversionsRecursivly_succ apply (fuel + k) t s r ih

/-- Unfolding of `isPath` at a non-empty list, in terms of `conversionsFrom`. -/
theorem isPath_cons (a b : ColorSpace) (e : Conversion) (rest : List Conversion) :
    isPath a b (e :: rest) = true ↔ e ∈ conversionsFrom a ∧ isPath e.«to» b rest = true := by
  simp only [isPath, Bool.and_eq_true, decide_eq_true_eq, conversionsFrom, List.mem_filter]

/-- The edges leaving CielchD50. -/
theorem conversionsFrom_CielchD50 :
    conversionsFrom .CielchD50 = [⟨.CielchD50, .CielabD50, .fromPolarToCartesian⟩] := by
  decide

/-- The edges leaving CielabD50. -/
theorem conversionsFrom_CielabD50 :
    conversionsFrom .CielabD50 =
      [⟨.CielabD50, .XyzD50, .fromCielabD50ToXyzD50⟩,
       ⟨.CielabD50, .CielchD50, .fromCartesianToPolar⟩] := by
  decide

/-- The edges leaving XyzD50. -/
theorem conversionsFrom_XyzD50 :
    conversionsFrom .XyzD50 =
      [⟨.XyzD50, .XyzD65, .fromXyzD50ToXyzD65⟩,
       ⟨.XyzD50, .CielabD50, .fromXyzD50ToCielabD50⟩] := by
  decide

/-- The bisection returns its initial lower bound or a chroma the oracle
accepts. -/
theorem bisectChroma_eq_lower_or_accepted (oracle : ℚ → Bool) (tolerance : ℚ) :
    ∀ (n : Nat) (lower upper : ℚ),
      bisectChroma oracle tolerance n lower upper = lower ∨
        oracle (bisectChroma oracle tolerance n lower upper) = true := by
  intro n
  induction n with
  | zero => intro lower upper; exact Or.inl rfl
  | succ n ih =>
    intro lower upper
    unfold bisectChroma
    by_cases hw : upper - lower < tolerance
    · rw [if_pos hw]; exact Or.inl rfl
    · rw [if_neg hw]
      by_cases hc : oracle ((lower + upper) / 2) = true
      · simp only [hc, if_true]
        rcases ih ((lower + upper) / 2) upper with h | h
        · rw [h]; exact Or.inr hc
        · exact Or.inr h
      · simp only [hc]
        exact ih lower ((lower + upper) / 2)

/-- The bisection stays inside the interval it is given. -/
theorem bisectChroma_mem_interval (oracle : ℚ → Bool) (tolerance : ℚ) :
    ∀ (n : Nat) (lower upper : ℚ), lower ≤ upper →
      lower ≤ bisectChroma oracle tolerance n lower upper ∧
        bisectChroma oracle tolerance n lower upper ≤ upper := by
  intro n
  induction n with
  | zero => intro lower upper h; exact ⟨le_refl _, h⟩
  | succ n ih =>
    intro lower upper h
    unfold bisectChroma
    by_cases hw : upper - lower < tolerance
    · rw [if_pos hw]; exact ⟨le_refl _, h⟩
    · rw [if_neg hw]
      have h1 : lower ≤ (lower + upper) / 2 := by linarith
      have h2 : (lower + upper) / 2 ≤ upper := by linarith
      by_cases hc : oracle ((lower + upper) / 2) = true
      · simp only [hc, if_true]
        obtain ⟨h3, h4⟩ := ih ((lower + upper) / 2) upper h2
        exact ⟨le_trans h1 h3, h4⟩
      · simp only [hc]
        obtain ⟨h3, h4⟩ := ih lower ((lower + upper) / 2) h1
        exact ⟨h3, le_trans h4 h2⟩

/-- A chroma between 0 and the clamped chroma is not changed by the clamp. -/
theorem clamp_chroma_of_mem (c maximumChroma y : ℚ) (h0 : 0 ≤ y)
    (h1 : y ≤ max 0 (min c maximumChroma)) : max 0 (min y maximumChroma) = y := by
  by_cases hM : 0 ≤ maximumChroma
  · have hy : y ≤ maximumChroma := by
      refine le_trans h1 (max_le hM (min_le_right _ _))
    rw [min_eq_left hy, max_eq_right h0]
  · have hM' : maximumChroma < 0 := lt_of_not_ge hM
    have hz : max 0 (min c maximumChroma) = 0 :=
      max_eq_left (le_trans (min_le_right _ _) (le_of_lt hM'))
    have hy : y = 0 := le_antisymm (hz ▸ h1) h0
    subst hy
    exact max_eq_left (le_trans (min_le_right _ _) (le_of_lt hM'))

/-- The chroma returned by the reducer lies between 0 and the clamped input
chroma. -/
theorem reduceChromaToFitIntoGamut_c_mem (isInGamut : LchDouble → Bool) (maximumChroma : ℚ)
    (tuning : BisectionTuning) (color : LchDouble) :
    0 ≤ (reduceChromaToFitIntoGamut isInGamut maximumChroma tuning color).c ∧
      (reduceChromaToFitIntoGamut isInGamut maximumChroma tuning color).c
        ≤ max 0 (min color.c maximumChroma) := by
  unfold reduceChromaToFitIntoGamut
  by_cases hg : isInGamut { color with c := max 0 (min color.c maximumChroma) } = true
  · simp only [hg, if_true]
    exact ⟨le_max_left _ _, le_refl _⟩
  · simp only [hg]
    exact bisectChroma_mem_interval _ _ _ 0 _ (le_max_left _ _)

/-- The colour returned by the reducer is accepted by the oracle, or it has
chroma 0. -/
theorem reduceChromaToFitIntoGamut_accepted_or_zero (isInGamut : LchDouble → Bool)
    (maximumChroma : ℚ) (tuning : BisectionTuning) (color : LchDouble) :
    isInGamut (reduceChromaToFitIntoGamut isInGamut maximumChroma tuning color) = true ∨
      (reduceChromaToFitIntoGamut isInGamut maximumChroma tuning color).c = 0 := by
  unfold reduceChromaToFitIntoGamut
  by_cases hg : isInGamut { color with c := max 0 (min color.c maximumChroma) } = true
  · simp only [hg, if_true, true_or]
  · simp only [hg]
    rcases bisectChroma_eq_lower_or_accepted
        (fun c => isInGamut { l := color.l, c := c, h := color.h }) tuning.tolerance
        tuning.iterations 0 (max 0 (min color.c maximumChroma)) with h | h
    · exact Or.inr h
    · exact Or.inl h

/-- The reducer applied to its own output returns that output. -/
theorem reduceChromaToFitIntoGamut_idempotent (isInGamut : LchDouble → Bool)
    (maximumChroma : ℚ) (tuning : BisectionTuning) (color : LchDouble) :
    reduceChromaToFitIntoGamut isInGamut maximumChroma tuning
        (reduceChromaToFitIntoGamut isInGamut maximumChroma tuning color)
      = reduceChromaToFitIntoGamut isInGamut maximumChroma tuning color := by
  obtain ⟨hc0, hc1⟩ := reduceChromaToFitIntoGamut_c_mem isInGamut maximumChroma tuning color
  have hor := reduceChromaToFitIntoGamut_accepted_or_zero isInGamut maximumChroma tuning color
  generalize reduceChromaToFitIntoGamut isInGamut maximumChroma tuning color = r at hc0 hc1 hor
  have hclamp : max 0 (min r.c maximumChroma) = r.c :=
    clamp_chroma_of_mem color.c maximumChroma r.c hc0 hc1
  unfold reduceChromaToFitIntoGamut
  simp only [hclamp]
  by_cases hg : isInGamut r = true
  · rw [if_pos hg]
  · rw [if_neg hg]
    have hz : r.c = 0 := by
      rcases hor with h | h
      · exact absurd h hg
      · exact h
    have hb := bisectChroma_mem_interval (fun c => isInGamut { r with c := c })
      tuning.tolerance tuning.iterations 0 r.c (le_of_eq hz.symm)
    have hb0 : bisectChroma (fun c => isInGamut { r with c := c })
        tuning.tolerance tuning.iterations 0 r.c = r.c :=
      le_antisymm hb.2 (hz ▸ hb.1)
    rw [hb0]

/-- For a positive divisor, `fmod` differs from its argument by an integer
multiple of the divisor and lies strictly between minus the divisor and the
divisor. -/
theorem fmod_spec (x y : ℚ) (hy : 0 < y) :
    (∃ k : ℤ, fmod x y = x + y * k) ∧ -y < fmod x y ∧ fmod x y < y := by
  have hxy : x = y * (x / y) := by field_simp
  unfold fmod
  by_cases hq : 0 ≤ x / y
  · rw [if_pos hq]
    have h1 : (⌊x / y⌋ : ℚ) ≤ x / y := Int.floor_le _
    have h2 : x / y < ⌊x / y⌋ + 1 := Int.lt_floor_add_one _
    refine ⟨⟨-⌊x / y⌋, by push_cast; ring⟩, ?_, ?_⟩
    · have : 0 ≤ y * (x / y - ⌊x / y⌋) := mul_nonneg hy.le (by linarith)
      nlinarith
    · have : y * (x / y - ⌊x / y⌋) < y * 1 := mul_lt_mul_of_pos_left (by linarith) hy
      nlinarith
  · rw [if_neg hq]
    have h1 : x / y ≤ (⌈x / y⌉ : ℚ) := Int.le_ceil _
    have h2 : (⌈x / y⌉ : ℚ) < x / y + 1 := Int.ceil_lt_add_one _
    refine ⟨⟨-⌈x / y⌉, by push_cast; ring⟩, ?_, ?_⟩
    · have : y * (⌈x / y⌉ - x / y) < y * 1 := mul_lt_mul_of_pos_left (by linarith) hy
      nlinarith
    · have : 0 ≤ y * (⌈x / y⌉ - x / y) := mul_nonneg hy.le (by linarith)
      nlinarith

/-- The value `qBound` returns lies between the bounds, when they are
ordered. -/
theorem qBound_mem {α : Type} [LinearOrder α] (lo val hi : α) (h : lo ≤ hi) :
    lo ≤ qBound lo val hi ∧ qBound lo val hi ≤ hi := by
  unfold qBound
  exact ⟨le_max_left _ _, max_le h (min_le_left _ _)⟩

/-- After `setMaximum` with a number, on a state whose stored minimum is a
number, the stored maximum is the argument and the stored minimum is the
smaller of the old minimum and the argument. -/
theorem setMaximum_number (s : MultiSpinBoxSectionPrivate) (lo x : WithBot (WithTop ℚ))
    (hmin : s.m_minimum = some lo) :
    (s.setMaximum (some x)).m_maximum = some x ∧
      (s.setMaximum (some x)).m_minimum = some (min lo x) := by
  unfold MultiSpinBoxSectionPrivate.setMaximum
  by_cases h : x < lo
  · simp [SectionDouble.less, hmin, h, min_eq_right (le_of_lt h)]
  · simp [SectionDouble.less, hmin, h, min_eq_left (le_of_not_lt h)]

/-- After `setMinimum` with a number, on a state whose stored maximum is a
number, the stored minimum is the argument and the stored maximum is the
larger of the old maximum and the argument. -/
theorem setMinimum_number (s : MultiSpinBoxSectionPrivate) (hi x : WithBot (WithTop ℚ))
    (hmax : s.m_maximum = some hi) :
    (s.setMinimum (some x)).m_minimum = some x ∧
      (s.setMinimum (some x)).m_maximum = some (max hi x) := by
  unfold MultiSpinBoxSectionPrivate.setMinimum
  by_cases h : hi < x
  · simp [SectionDouble.less, hmax, h, max_eq_right (le_of_lt h)]
  · simp [SectionDouble.less, hmax, h, max_eq_left (le_of_not_lt h)]

/-- The comparison `m_minimum <= m_maximum` holds exactly when both members are
numbers in that order. -/
theorem isOrdered_iff (s : MultiSpinBoxSectionPrivate) :
    s.isOrdered = true ↔ ∃ lo hi, s.m_minimum = some lo ∧ s.m_maximum = some hi ∧ lo ≤ hi := by
  unfold MultiSpinBoxSectionPrivate.isOrdered
  constructor
  · intro h
    cases hlo : s.m_minimum with
    | none => rw [hlo] at h; simp [SectionDouble.lessOrEqual] at h
    | some lo =>
      cases hhi : s.m_maximum with
      | none => rw [hlo, hhi] at h; simp [SectionDouble.lessOrEqual] at h
      | some hi =>
        rw [hlo, hhi] at h
        exact ⟨lo, hi, rfl, rfl, by simpa [SectionDouble.lessOrEqual] using h⟩
  · rintro ⟨lo, hi, h1, h2, h3⟩
    rw [h1, h2]; simp [SectionDouble.lessOrEqual, h3]

/-- A setter call that passes no not-a-number bound keeps
`m_minimum <= m_maximum`. -/
theorem SectionSetter.run_isOrdered (s : MultiSpinBoxSectionPrivate) (call : SectionSetter)
    (hcall : call.boundIsNumber = true) (h : s.isOrdered = true) :
    (SectionSetter.run s call).isOrdered = true := by
  obtain ⟨lo, hi, h1, h2, h3⟩ := (isOrdered_iff s).mp h
  cases call with
  | decimals n => exact h
  | wrapping b => exact h
  | maximum x =>
    cases x with
    | none => simp [SectionSetter.boundIsNumber] at hcall
    | some x =>
      obtain ⟨e1, e2⟩ := setMaximum_number s lo x h1
      exact (isOrdered_iff _).mpr ⟨_, _, e2, e1, min_le_right _ _⟩
  | minimum x =>
    cases x with
    | none => simp [SectionSetter.boundIsNumber] at hcall
    | some x =>
      obtain ⟨e1, e2⟩ := setMinimum_number s hi x h2
      exact (isOrdered_iff _).mpr ⟨_, _, e1, e2, le_max_right _ _⟩
  | prefixText t => exact h
  | singleStep x => exact h
  | suffixText t => exact h

/-- A sequence of setter calls that pass no not-a-number bound keeps
`m_minimum <= m_maximum`. -/
theorem runSetters_isOrdered (calls : List SectionSetter) :
    ∀ s : MultiSpinBoxSectionPrivate, (∀ call ∈ calls, call.boundIsNumber = true) →
      s.isOrdered = true → (runSetters s calls).isOrdered = true := by
  induction calls with
  | nil => intro s _ h; exact h
  | cons call rest ih =>
    intro s hcalls h
    exact ih (SectionSetter.run s call) (fun c hc => hcalls c (List.mem_cons_of_mem _ hc))
      (SectionSetter.run_isOrdered s call (hcalls call (List.mem_cons_self _ _)) h)

/-- On an argument between 0 and the positive divisor, `fmod` is the
identity. -/
theorem fmod_of_mem (x y : ℚ) (hx0 : 0 ≤ x) (hxy : x < y) : fmod x y = x := by
  have hy : 0 < y := lt_of_le_of_lt hx0 hxy
  have hq0 : 0 ≤ x / y := div_nonneg hx0 hy.le
  have hq1 : x / y < 1 := (div_lt_one hy).mpr hxy
  have hfloor : ⌊x / y⌋ = 0 := by
    rw [Int.floor_eq_iff]
    exact ⟨by simpa using hq0, by simpa using hq1⟩
  unfold fmod
  rw [if_pos hq0, hfloor]
  simp

/-- A value between the bounds is returned unchanged by `qBound`. -/
theorem qBound_of_mem {α : Type} [LinearOrder α] (lo val hi : α) (h1 : lo ≤ val)
    (h2 : val ≤ hi) : qBound lo val hi = val := by
  unfold qBound
  rw [min_eq_right h2, max_eq_right h1]

/-- The hue normalisation of `completlyNormalizedAndBounded`: `fmod` by 360,
then 360 is added, with rounding, to a negative result.  The outcome lies in
`[0, 360]` and is at most `2 ^ (-45)` away from a value that differs from the
argument by an integer multiple of 360. -/
theorem normalized_hue_spec (x : ℚ) :
    (0 ≤ (if fmod x 360 < 0 then roundToDouble (fmod x 360 + 360) else fmod x 360) ∧
      (if fmod x 360 < 0 then roundToDouble (fmod x 360 + 360) else fmod x 360) ≤ 360) ∧
    ∃ k : ℤ, |(if fmod x 360 < 0 then roundToDouble (fmod x 360 + 360) else fmod x 360)
      - (x + 360 * k)| ≤ 1 / 2 ^ 45 := by
  obtain ⟨⟨k, hk⟩, hlo, hhi⟩ := fmod_spec x 360 (by norm_num)
  by_cases hneg : fmod x 360 < 0
  · simp only [if_pos hneg]
    have hq0 : 0 ≤ fmod x 360 + 360 := by linarith
    have hq1 : fmod x 360 + 360 ≤ 360 := by linarith
    refine ⟨roundToDouble_mem_of_mem _ hq0 hq1, ⟨k + 1, ?_⟩⟩
    have herr := roundToDouble_error (fmod x 360 + 360) 8
      (by rw [abs_of_nonneg hq0]; norm_num; linarith) (by norm_num)
    have e : x + 360 * ((k + 1 : ℤ) : ℚ) = fmod x 360 + 360 := by
      rw [hk]; push_cast; ring
    rw [e]
    have e2 : (2 : ℚ) ^ ((8 : ℤ) - 53) = 1 / 2 ^ 45 := by norm_num
    rw [e2] at herr
    exact herr
  · simp only [if_neg hneg]
    refine ⟨⟨le_of_not_lt hneg, hhi.le⟩, ⟨k, ?_⟩⟩
    rw [hk]
    simp

/-- The chroma, hue, lightness and alpha returned by
`completlyNormalizedAndBounded` are in their ranges, the hue range being
`[0, 360]`. -/
theorem completlyNormalizedAndBounded_mem (color : LchaDouble) :
    0 ≤ (completlyNormalizedAndBounded color).c ∧
    0 ≤ (completlyNormalizedAndBounded color).h ∧
    (completlyNormalizedAndBounded color).h ≤ 360 ∧
    0 ≤ (completlyNormalizedAndBounded color).l ∧
    (completlyNormalizedAndBounded color).l ≤ 100 ∧
    0 ≤ (completlyNormalizedAndBounded color).a ∧
    (completlyNormalizedAndBounded color).a ≤ 1 := by
  have hl := qBound_mem 0 color.l 100 (by norm_num)
  have ha := qBound_mem 0 color.a 1 (by norm_num)
  refine ⟨?_, ?_, ?_, hl.1, hl.2, ha.1, ha.2⟩
  · unfold completlyNormalizedAndBounded
    by_cases hc : color.c < 0
    · simp only [if_pos hc]; linarith
    · simp only [if_neg hc]; exact le_of_not_lt hc
  · unfold completlyNormalizedAndBounded
    by_cases hc : color.c < 0
    · simp only [if_pos hc]; exact (normalized_hue_spec _).1.1
    · simp only [if_neg hc]; exact (normalized_hue_spec color.h).1.1
  · unfold completlyNormalizedAndBounded
    by_cases hc : color.c < 0
    · simp only [if_pos hc]; exact (normalized_hue_spec _).1.2
    · simp only [if_neg hc]; exact (normalized_hue_spec color.h).1.2

/-- The hue returned by `completlyNormalizedAndBounded` for a non-negative
chroma is at most `2 ^ (-45)` away from a value that differs from the input hue
by an integer multiple of 360. -/
theorem completlyNormalizedAndBounded_hue_near (color : LchaDouble) (hc : 0 ≤ color.c) :
    ∃ k : ℤ, |(completlyNormalizedAndBounded color).h - (color.h + 360 * k)| ≤ 1 / 2 ^ 45 := by
  have hc' : ¬ color.c < 0 := not_lt.mpr hc
  unfold completlyNormalizedAndBounded
  simp only [if_neg hc']
  exact (normalized_hue_spec color.h).2

/-- The hue returned by `completlyNormalizedAndBounded` for a negative chroma
is close to a value that differs from the input hue plus 180 by an integer
multiple of 360: the distance is at most the rounding error of the sum
`h + 180` plus `2 ^ (-45)`. -/
theorem completlyNormalizedAndBounded_hue_near_of_neg (color : LchaDouble)
    (hc : color.c < 0) :
    ∃ k : ℤ, |(completlyNormalizedAndBounded color).h - (color.h + 180 + 360 * k)|
      ≤ 1 / 2 ^ 53 * |color.h + 180| + 1 / 2 ^ 44 := by
  unfold completlyNormalizedAndBounded
  simp only [if_pos hc]
  obtain ⟨k, hk⟩ := (normalized_hue_spec (roundToDouble (color.h + 180))).2
  refine ⟨k, ?_⟩
  have hrel := roundToDouble_relative_error (color.h + 180)
  have e1 : (2 : ℚ) ^ (-53 : ℤ) = 1 / 2 ^ 53 := by norm_num
  have e2 : (2 : ℚ) ^ (-1075 : ℤ) ≤ 1 / 2 ^ 45 := by
    have : (2 : ℚ) ^ (-1075 : ℤ) ≤ 2 ^ (-45 : ℤ) :=
      zpow_le_zpow_right₀ (by norm_num) (by norm_num)
    calc (2 : ℚ) ^ (-1075 : ℤ) ≤ 2 ^ (-45 : ℤ) := this
      _ = 1 / 2 ^ 45 := by norm_num
  rw [e1] at hrel
  have e3 : (1 : ℚ) / 2 ^ 44 = 1 / 2 ^ 45 + 1 / 2 ^ 45 := by norm_num
  generalize (if fmod (roundToDouble (color.h + 180)) 360 < 0
    then roundToDouble (fmod (roundToDouble (color.h + 180)) 360 + 360)
    else fmod (roundToDouble (color.h + 180)) 360) = H at hk ⊢
  generalize roundToDouble (color.h + 180) = s at hk hrel
  rw [abs_le] at hk hrel ⊢
  generalize |color.h + 180| = A at hrel ⊢
  constructor <;> linarith [hk.1, hk.2, hrel.1, hrel.2]

/-- A colour that is already normalized and bounded, with a hue below 360, is
returned unchanged by `completlyNormalizedAndBounded`. -/
theorem completlyNormalizedAndBounded_of_normalized (y : LchaDouble) (hc : 0 ≤ y.c)
    (hh0 : 0 ≤ y.h) (hh1 : y.h < 360) (hl0 : 0 ≤ y.l) (hl1 : y.l ≤ 100)
    (ha0 : 0 ≤ y.a) (ha1 : y.a ≤ 1) : completlyNormalizedAndBounded y = y := by
  have hc' : ¬ y.c < 0 := not_lt.mpr hc
  have hf : fmod y.h 360 = y.h := fmod_of_mem y.h 360 hh0 hh1
  have hh' : ¬ y.h < 0 := not_lt.mpr hh0
  unfold completlyNormalizedAndBounded
  simp only [if_neg hc', hf, if_neg hh', qBound_of_mem 0 y.l 100 hl0 hl1,
    qBound_of_mem 0 y.a 1 ha0 ha1]

/-- A normalized and bounded colour of hue exactly 360 is returned with hue
0. -/
theorem completlyNormalizedAndBounded_of_hue_360 (y : LchaDouble) (hc : 0 ≤ y.c)
    (hh : y.h = 360) (hl0 : 0 ≤ y.l) (hl1 : y.l ≤ 100)
    (ha0 : 0 ≤ y.a) (ha1 : y.a ≤ 1) :
    completlyNormalizedAndBounded y = { y with h := 0 } := by
  have hc' : ¬ y.c < 0 := not_lt.mpr hc
  have hf : fmod y.h 360 = 0 := by rw [hh]; norm_num [fmod]
  unfold completlyNormalizedAndBounded
  simp only [if_neg hc', hf, lt_irrefl, if_false, qBound_of_mem 0 y.l 100 hl0 hl1,
    qBound_of_mem 0 y.a 1 ha0 ha1]

/-- The sum `-2 ^ (-70) + 360` rounds to 360. -/
theorem roundToDouble_tiny_negative_add_360 :
    roundToDouble (-(1 / 2 ^ 70) + 360) = 360 := by
  rw [roundToDouble_eq_of_near _ 8 (360 * 2 ^ 44) (by norm_num [abs_of_pos])
    (by norm_num [abs_of_pos]) (by norm_num) (by norm_num [abs_of_neg])]
  norm_num

/-- What `completlyNormalizedAndBounded` returns for the sample colour of hue
`-2 ^ (-70)`: hue 360. -/
theorem completlyNormalizedAndBounded_sampleTinyNegativeHue :
    completlyNormalizedAndBounded sampleTinyNegativeHue = ⟨50, 10, 360, 1⟩ := by
  have hf : fmod (-(1 / 2 ^ 70)) 360 = -(1 / 2 ^ 70) :=
    fmod_of_abs_lt _ _ (by norm_num) (by norm_num [abs_of_pos])
  have hneg : (-(1 / 2 ^ 70) : ℚ) < 0 := by norm_num
  have hc : ¬ ((10 : ℚ) < 0) := by norm_num
  unfold completlyNormalizedAndBounded sampleTinyNegativeHue
  simp only [if_neg hc, hf, if_pos hneg, roundToDouble_tiny_negative_add_360]
  norm_num [qBound]

/-- What `updateSecondColor` stores: the normalized second colour with its hue
moved, up to rounding, by 0, +360 or -360; for a first hue in `[0, 360)` the
result is within `180 + 3 · 2 ^ (-45)` of it. -/
theorem updateSecondColor_spec (p : GradientImageParameters)
    (h0 : 0 ≤ p.m_firstColorCorrected.h) (h1 : p.m_firstColorCorrected.h < 360) :
    p.updateSecondColor.m_firstColorCorrected = p.m_firstColorCorrected ∧
    p.updateSecondColor.m_secondColorCorrectedAndAltered.c
      = (completlyNormalizedAndBounded p.m_secondColorCorrectedAndAltered).c ∧
    |p.updateSecondColor.m_secondColorCorrectedAndAltered.h - p.m_firstColorCorrected.h|
      ≤ 180 + 3 / 2 ^ 45 ∧
    ∃ k : ℤ, |p.updateSecondColor.m_secondColorCorrectedAndAltered.h
      - ((completlyNormalizedAndBounded p.m_secondColorCorrectedAndAltered).h + 360 * k)|
      ≤ 1 / 2 ^ 44 := by
  obtain ⟨_, hs0, hs1, _⟩ := completlyNormalizedAndBounded_mem p.m_secondColorCorrectedAndAltered
  unfold GradientImageParameters.updateSecondColor
  generalize completlyNormalizedAndBounded p.m_secondColorCorrectedAndAltered = second
    at hs0 hs1 ⊢
  generalize p.m_firstColorCorrected.h = f at h0 h1 ⊢
  have e45 : (2 : ℚ) ^ ((8 : ℤ) - 53) = 1 / 2 ^ 45 := by norm_num
  have e44 : (2 : ℚ) ^ ((9 : ℤ) - 53) = 1 / 2 ^ 44 := by norm_num
  have hd := roundToDouble_error (f - second.h) 8
    (by rw [abs_lt]; norm_num; constructor <;> linarith) (by norm_num)
  have hplus := roundToDouble_error (second.h + 360) 9
    (by rw [abs_lt]; norm_num; constructor <;> linarith) (by norm_num)
  have hminus := roundToDouble_error (second.h - 360) 8
    (by rw [abs_lt]; norm_num; constructor <;> linarith) (by norm_num)
  rw [e45] at hd hminus
  rw [e44] at hplus
  rw [abs_le] at hd hplus hminus
  have c1 : (1 : ℚ) / 2 ^ 44 = 2 / 2 ^ 45 := by norm_num
  have c2 : (0 : ℚ) < 1 / 2 ^ 45 := by norm_num
  by_cases hfar : |roundToDouble (f - second.h)| > 180
  · by_cases hgt : f > second.h
    · simp only [hfar, hgt, if_true]
      have hdpos : 180 < roundToDouble (f - second.h) := by
        rcases lt_abs.mp hfar with h | h
        · exact h
        · linarith [hd.1, hd.2]
      refine ⟨trivial, trivial, ?_, ⟨1, ?_⟩⟩
      · rw [abs_le]; constructor <;> linarith [hplus.1, hplus.2, hd.1, hd.2]
      · push_cast
        rw [abs_le]; constructor <;> linarith [hplus.1, hplus.2]
    · simp only [hfar, hgt, if_true, if_false]
      have hle : f ≤ second.h := le_of_not_lt hgt
      have hdneg : roundToDouble (f - second.h) < -180 := by
        rcases lt_abs.mp hfar with h | h
        · linarith [hd.1, hd.2]
        · linarith
      refine ⟨trivial, trivial, ?_, ⟨-1, ?_⟩⟩
      · rw [abs_le]; constructor <;> linarith [hminus.1, hminus.2, hd.1, hd.2]
      · push_cast
        rw [abs_le]; constructor <;> linarith [hminus.1, hminus.2]
  · simp only [hfar, if_false]
    have hnear : |roundToDouble (f - second.h)| ≤ 180 := le_of_not_lt hfar
    rw [abs_le] at hnear
    refine ⟨trivial, trivial, ?_, ⟨0, ?_⟩⟩
    · rw [abs_le]; constructor <;> linarith [hnear.1, hnear.2, hd.1, hd.2]
    · push_cast
      simp only [mul_zero, add_zero, sub_self, abs_zero]
      positivity

/-- The angle of the point at distance `c > 0` in direction `θ`, for `θ` in
`(-π, π]`, is `θ`. -/
theorem atan2_polar (c θ : ℝ) (hc : 0 < c) (h1 : -Real.pi < θ) (h2 : θ ≤ Real.pi) :
    atan2 (c * Real.sin θ) (c * Real.cos θ) = θ := by
  unfold atan2
  have h : (⟨c * Real.cos θ, c * Real.sin θ⟩ : ℂ)
      = (c : ℂ) * (Complex.cos θ + Complex.sin θ * Complex.I) := by
    apply Complex.ext
    · simp [Complex.cos_ofReal_re, Complex.sin_ofReal_im, Complex.cos_ofReal_im,
        Complex.sin_ofReal_re]
    · simp [Complex.cos_ofReal_re, Complex.sin_ofReal_im, Complex.cos_ofReal_im,
        Complex.sin_ofReal_re]
  rw [h]
  exact Complex.arg_mul_cos_add_sin_mul_I hc ⟨h1, h2⟩

/-- Every event of the pixel loop is a conversion, and there are
`m_gradientLength` of them. -/
theorem pixelLoop_spec (p : GradientImageParameters) :
    p.pixelLoop.length = p.m_gradientLength.toNat ∧
      (∀ e ∈ p.pixelLoop, e.isConversion = true) ∧
      p.pixelLoop.filter RenderEvent.isConversion = p.pixelLoop := by
  have hall : ∀ e ∈ p.pixelLoop, e.isConversion = true := by
    intro e he
    unfold GradientImageParameters.pixelLoop at he
    obtain ⟨i, _, rfl⟩ := List.mem_map.mp he
    rfl
  refine ⟨by simp [GradientImageParameters.pixelLoop], hall, ?_⟩
  exact List.filter_eq_self.mpr hall

/-- A key is in the mapping exactly when it is among its keys. -/
theorem ColorHash.contains_iff_mem_keys (h : ColorHash) (key : ColorSpace) :
    h.contains key = true ↔ key ∈ h.keys := by
  unfold ColorHash.contains ColorHash.keys
  simp only [List.any_eq_true, decide_eq_true_eq, List.mem_map]

/-- The keys after an insertion: the inserted key and the keys before. -/
theorem ColorHash.contains_insert (h : ColorHash) (key : ColorSpace) (x : GenericColor)
    (k : ColorSpace) :
    (h.insert key x).contains k = true ↔ k = key ∨ h.contains k = true := by
  induction h with
  | nil => simp [ColorHash.insert, ColorHash.contains, eq_comm]
  | cons e rest ih =>
    unfold ColorHash.insert
    by_cases he : e.1 = key
    · rw [if_pos he]
      simp only [ColorHash.contains, List.any_cons, Bool.or_eq_true, decide_eq_true_eq] at ih ⊢
      rw [he]
      constructor
      · rintro (h1 | h1)
        · exact Or.inl h1.symm
        · exact Or.inr (Or.inr h1)
      · rintro (h1 | h1 | h1)
        · exact Or.inl h1.symm
        · exact Or.inl h1
        · exact Or.inr h1
    · rw [if_neg he]
      simp only [ColorHash.contains, List.any_cons, Bool.or_eq_true, decide_eq_true_eq] at ih ⊢
      constructor
      · rintro (h1 | h1)
        · exact Or.inr (Or.inl h1)
        · rcases ih.mp h1 with h2 | h2
          · exact Or.inl h2
          · exact Or.inr (Or.inr h2)
      · rintro (h1 | h1 | h1)
        · exact Or.inr (ih.mpr (Or.inl h1))
        · exact Or.inl h1
        · exact Or.inr (ih.mpr (Or.inr h1))

/-- The values after an insertion: the inserted value under the inserted key,
the values before under the other keys. -/
theorem ColorHash.value_insert (h : ColorHash) (key : ColorSpace) (x : GenericColor)
    (k : ColorSpace) :
    (h.insert key x).value k = if k = key then x else h.value k := by
  induction h with
  | nil =>
    by_cases hk : k = key
    · simp [ColorHash.insert, ColorHash.value, hk]
    · have hk' : ¬ key = k := fun h => hk h.symm
      simp [ColorHash.insert, ColorHash.value, hk, hk']
  | cons e rest ih =>
    unfold ColorHash.insert
    by_cases he : e.1 = key
    · rw [if_pos he]
      by_cases hk : k = key
      · simp [ColorHash.value, hk]
      · have hk' : ¬ key = k := fun h => hk h.symm
        have hk'' : ¬ e.1 = k := fun h => hk' (he ▸ h)
        simp [ColorHash.value, hk, hk', hk'']
    · rw [if_neg he]
      by_cases hek : e.1 = k
      · have hk : ¬ k = key := fun h => he (hek.trans h)
        simp [ColorHash.value, hek, hk]
      · have ih' := ih
        simp only [ColorHash.value] at ih' ⊢
        simp only [List.find?_cons, hek, decide_False]
        exact ih'

/-- In a mapping that stores `f k` under every key `k` of a list, the value
under a key of the list is `f` of the key. -/
theorem ColorHash.value_map_keys (f : ColorSpace → GenericColor) (keys : List ColorSpace)
    (k : ColorSpace) (hk : k ∈ keys) :
    ColorHash.value (keys.map (fun key => (key, f key))) k = f k := by
  induction keys with
  | nil => simp at hk
  | cons key rest ih =>
    by_cases hkey : key = k
    · simp [ColorHash.value, hkey]
    · have hrest : k ∈ rest := by
        rcases List.mem_cons.mp hk with h | h
        · exact absurd h.symm hkey
        · exact h
      have ih' := ih hrest
      simp only [ColorHash.value] at ih' ⊢
      simp only [List.map_cons, List.find?_cons, hkey, decide_False]
      exact ih'

/-- Every colour space is in the list of all colour spaces. -/
theorem ColorSpace.mem_all (s : ColorSpace) : s ∈ ColorSpace.all := by
  cases s <;> decide

/-- A list of pairwise distinct colour spaces has at most six entries. -/
theorem ColorSpace.length_le_of_nodup (l : List ColorSpace) (hl : l.Nodup) : l.length ≤ 6 := by
  have hsub : l ⊆ ColorSpace.all := fun s _ => ColorSpace.mem_all s
  exact (List.subperm_of_subset hl hsub).length_le

/-- The exhaustive search finds every directed path that avoids the visited
spaces, repeats no target and has fewer edges than the bound. -/
theorem simplePathsFrom_complete (b : ColorSpace) :
    ∀ (fuel : Nat) (visited : List ColorSpace) (a : ColorSpace) (p : List Conversion),
      isPath a b p = true → (∀ e ∈ p, e.«to» ∉ visited) → (p.map (fun e => e.«to»)).Nodup →
      p.length < fuel → p ∈ simplePathsFrom fuel visited a b := by
  intro fuel
  induction fuel with
  | zero => intro visited a p _ _ _ hlen; omega
  | succ fuel ih =>
    intro visited a p hpath hvis hnodup hlen
    unfold simplePathsFrom
    cases p with
    | nil =>
      have hab : a = b := by simpa [isPath] using hpath
      simp [hab]
    | cons e rest =>
      obtain ⟨hmem, hrest⟩ := (isPath_cons a b e rest).mp hpath
      apply List.mem_append_right
      rw [List.mem_flatMap]
      refine ⟨e, hmem, ?_⟩
      have hev : e.«to» ∉ visited := hvis e (List.mem_cons_self _ _)
      rw [if_neg hev]
      rw [List.mem_map]
      refine ⟨rest, ?_, rfl⟩
      rw [List.map_cons, List.nodup_cons] at hnodup
      apply ih (e.«to» :: visited) e.«to» rest hrest
      · intro e' he' hin
        rcases List.mem_cons.mp hin with h | h
        · exact hnodup.1 (List.mem_map.mpr ⟨e', he', h⟩)
        · exact hvis e' (List.mem_cons_of_mem _ he') h
      · exact hnodup.2
      · simpa using hlen

/-- For every ordered pair the exhaustive search finds one path, the one along
the line. -/
theorem simplePathsFrom_eq_pathBetween (a b : ColorSpace) :
    simplePathsFrom 6 [a] a b = [pathBetween a b] := by
  cases a <;> cases b <;> decide

/-- The path along the line is a directed path of the table that visits no
space twice. -/
theorem pathBetween_simple (a b : ColorSpace) :
    isPath a b (pathBetween a b) = true ∧ (pathVertices a (pathBetween a b)).Nodup := by
  cases a <;> cases b <;> decide

/-- A directed path of the table that visits no space twice is the path along
the line. -/
theorem eq_pathBetween_of_simple (a b : ColorSpace) (p : List Conversion)
    (hpath : isPath a b p = true) (hnodup : (pathVertices a p).Nodup) :
    p = pathBetween a b := by
  have hlen : (pathVertices a p).length ≤ 6 := ColorSpace.length_le_of_nodup _ hnodup
  unfold pathVertices at hnodup hlen
  rw [List.nodup_cons] at hnodup
  have hmem : p ∈ simplePathsFrom 6 [a] a b := by
    apply simplePathsFrom_complete b 6 [a] a p hpath
    · intro e he hin
      rw [List.mem_singleton] at hin
      exact hnodup.1 (List.mem_map.mpr ⟨e, he, hin⟩)
    · exact hnodup.2
    · simp only [List.length_cons, List.length_map] at hlen
      omega
  rw [simplePathsFrom_eq_pathBetween, List.mem_singleton] at hmem
  exact hmem

/-- An edge of the table either leads back onto the path from `s` to its
source, or extends that path to the path from `s` to its target. -/
theorem pathBetween_extend (s : ColorSpace) :
    ∀ e ∈ conversionList,
      e.«to» ∈ pathVertices s (pathBetween s e.«from») ∨
        pathBetween s e.«to» = pathBetween s e.«from» ++ [e] := by
  cases s <;> decide

/-- The path from a space to itself is empty. -/
theorem pathBetween_self (s : ColorSpace) : pathBetween s s = [] := by
  cases s <;> decide

/-- The composition along a path extended by an edge applies the function of
the edge last. -/
theorem composeAlong_append (apply : ConversionFunction → GenericColor → GenericColor)
    (p : List Conversion) (e : Conversion) (v : GenericColor) :
    composeAlong apply (p ++ [e]) v = apply e.conversionFunction (composeAlong apply p v) := by
  simp [composeAlong, List.foldl_append]

/-- Every traversal order keeps the mapping a tree rooted at the source: each
stored value is the composition along the path from the source, and the spaces
on that path are in the mapping. -/
theorem insertInOrder_invariant (apply : ConversionFunction → GenericColor → GenericColor)
    (s : ColorSpace) (v : GenericColor) :
    ∀ (order : List Conversion) (values result : ColorHash),
      (∀ k, values.contains k = true →
        values.value k = composeAlong apply (pathBetween s k) v ∧
          ∀ x ∈ pathVertices s (pathBetween s k), values.contains x = true) →
      insertInOrder apply values order = some result →
      ∀ k, result.contains k = true →
        result.value k = composeAlong apply (pathBetween s k) v ∧
          ∀ x ∈ pathVertices s (pathBetween s k), result.contains x = true := by
  intro order
  induction order with
  | nil =>
    intro values result hinv hrun
    simp only [insertInOrder, Option.some.injEq] at hrun
    subst hrun
    exact hinv
  | cons e rest ih =>
    intro values result hinv hrun
    unfold insertInOrder at hrun
    by_cases hcond : e ∈ conversionList ∧ values.contains e.«from» = true ∧
        values.contains e.«to» = false
    · rw [if_pos hcond] at hrun
      obtain ⟨hmem, hfrom, hto⟩ := hcond
      obtain ⟨hvalue, hverts⟩ := hinv e.«from» hfrom
      have hext : pathBetween s e.«to» = pathBetween s e.«from» ++ [e] := by
        rcases pathBetween_extend s e hmem with h | h
        · have := hverts e.«to» h
          rw [hto] at this
          exact absurd this (by decide)
        · exact h
      refine ih _ result ?_ hrun
      intro k hk
      rw [ColorHash.contains_insert] at hk
      rw [ColorHash.value_insert]
      by_cases hke : k = e.«to»
      · subst hke
        rw [if_pos rfl, hext, composeAlong_append, hvalue]
        refine ⟨rfl, ?_⟩
        intro x hx
        rw [ColorHash.contains_insert]
        simp only [pathVertices, List.map_append, List.map_cons, List.map_nil,
          List.mem_cons, List.mem_append, List.mem_singleton, List.not_mem_nil, or_false] at hx
        rcases hx with hx | hx | hx
        · exact Or.inr (hverts x (by simp [pathVertices, hx]))
        · exact Or.inr (hverts x (by
            simp only [pathVertices, List.mem_cons]
            exact Or.inr hx))
        · exact Or.inl hx
      · rw [if_neg hke]
        have hk' : values.contains k = true := by
          rcases hk with h | h
          · exact absurd h hke
          · exact h
        obtain ⟨hvk, hvertsk⟩ := hinv k hk'
        refine ⟨hvk, ?_⟩
        intro x hx
        rw [ColorHash.contains_insert]
        exact Or.inr (hvertsk x hx)
    · rw [if_neg hcond] at hrun
      simp at hrun

/-- The mapping that holds the source entry only is a tree rooted at the
source. -/
theorem insertInOrder_start (apply : ConversionFunction → GenericColor → GenericColor)
    (s : ColorSpace) (v : GenericColor) :
    ∀ k, (ColorHash.insert [] s v).contains k = true →
      (ColorHash.insert [] s v).value k = composeAlong apply (pathBetween s k) v ∧
        ∀ x ∈ pathVertices s (pathBetween s k), (ColorHash.insert [] s v).contains x = true := by
  intro k hk
  rw [ColorHash.contains_insert] at hk
  have hks : k = s := by
    rcases hk with h | h
    · exact h
    · simp [ColorHash.contains] at h
  subst hks
  rw [pathBetween_self, ColorHash.value_insert, if_pos rfl]
  refine ⟨rfl, ?_⟩
  intro x hx
  rw [ColorHash.contains_insert]
  simp only [pathVertices, List.map_nil, List.mem_singleton] at hx
  exact Or.inl hx

/-- The depth-first mapping stores under every key the composition along the
path from the source, and has every space as a key. -/
theorem allConversions_tree (apply : ConversionFunction → GenericColor → GenericColor)
    (s : ColorSpace) (v : GenericColor) :
    ∃ h : ColorHash, allConversions apply s v = some h ∧
      h = h.keys.map (fun k => (k, composeAlong apply (pathBetween s k) v)) ∧
      ∀ k : ColorSpace, k ∈ h.keys := by
  cases s <;>
    exact ⟨_, rfl, rfl, by intro k; cases k <;> simp [ColorHash.keys, ColorHash.insert]⟩

/-- The breadth-first mapping stores under every key the composition along the
path from the source, and has every space as a key. -/
theorem allConversionsBreadthFirst_tree
    (apply : ConversionFunction → GenericColor → GenericColor)
    (s : ColorSpace) (v : GenericColor) :
    allConversionsBreadthFirst apply s v
        = (allConversionsBreadthFirst apply s v).keys.map
          (fun k => (k, composeAlong apply (pathBetween s k) v)) ∧
      ∀ k : ColorSpace, k ∈ (allConversionsBreadthFirst apply s v).keys := by
  have hkeys : (allConversionsBreadthFirst apply s v).keys
      = (allConversionsBreadthFirst (fun _ c => c) s {}).keys := by
    cases s <;> rfl
  refine ⟨by cases s <;> rfl, ?_⟩
  intro k
  rw [hkeys]
  cases s <;> cases k <;> decide

/-! ## The conversion table -/

/-- C8: `conversionList` has exactly 10 directed edges, and each of the six
colour spaces occurs as the `from` of at least one edge and as the `to` of at
least one edge. -/
theorem conversionList_ten_edges_cover_all_spaces :
    conversionList.length = 10 ∧
    ∀ s : ColorSpace,
      (∃ e ∈ conversionList, e.«from» = s) ∧ (∃ e ∈ conversionList, e.«to» = s) := by
  refine ⟨rfl, ?_⟩
  intro s
  cases s <;> exact ⟨by decide, by decide⟩

/-- C10: `conversionList` contains both directions of every pair it connects:
for every edge from A to B there is an edge from B to A. -/
theorem conversionList_has_both_directions :
    ∀ e ∈ conversionList, ∃ e' ∈ conversionList, e'.«from» = e.«to» ∧ e'.«to» = e.«from» := by
  decide

/-- Witness for C10 at the edge XyzD50 → XyzD65, whose reverse XyzD65 → XyzD50
is in the table. -/
theorem conversionList_has_both_directions_witness :
    (⟨.XyzD50, .XyzD65, .fromXyzD50ToXyzD65⟩ : Conversion) ∈ conversionList ∧
      ∃ e' ∈ conversionList, e'.«from» = ColorSpace.XyzD65 ∧ e'.«to» = ColorSpace.XyzD50 :=
  ⟨by decide,
    conversionList_has_both_directions ⟨.XyzD50, .XyzD65, .fromXyzD50ToXyzD65⟩ (by decide)⟩

/-- C9: the shortest directed path from CielchD50 to XyzD65 in `conversionList`
has exactly three edges, namely CielchD50 → CielabD50 → XyzD50 → XyzD65: that
list is a path, every path between the two has at least three edges (none has
one or two), and a path of three edges is that one. -/
theorem shortest_path_CielchD50_XyzD65_has_three_edges :
    isPath .CielchD50 .XyzD65 pathCielchD50ToXyzD65 = true ∧
    pathCielchD50ToXyzD65.length = 3 ∧
    ∀ p : List Conversion, isPath .CielchD50 .XyzD65 p = true →
      3 ≤ p.length ∧ (p.length = 3 → p = pathCielchD50ToXyzD65) := by
  refine ⟨by decide, rfl, ?_⟩
  intro p hp
  match p, hp with
  | [], hp => simp [isPath] at hp
  | e1 :: rest1, hp =>
    rw [isPath_cons, conversionsFrom_CielchD50, List.mem_singleton] at hp
    obtain ⟨rfl, hp⟩ := hp
    match rest1, hp with
    | [], hp => simp [isPath] at hp
    | e2 :: rest2, hp =>
      rw [isPath_cons, conversionsFrom_CielabD50] at hp
      obtain ⟨h2, hp⟩ := hp
      simp only [List.mem_cons, List.mem_singleton, List.not_mem_nil, or_false] at h2
      match rest2, hp with
      | [], hp => rcases h2 with rfl | rfl <;> simp [isPath] at hp
      | e3 :: rest3, hp =>
        refine ⟨by simp, ?_⟩
        intro hlen
        have hnil : rest3 = [] := by
          cases rest3 with
          | nil => rfl
          | cons _ _ => simp at hlen
        subst hnil
        rw [isPath_cons] at hp
        obtain ⟨h3, hp⟩ := hp
        rcases h2 with rfl | rfl
        · rw [conversionsFrom_XyzD50] at h3
          simp only [List.mem_cons, List.mem_singleton, List.not_mem_nil, or_false] at h3
          rcases h3 with rfl | rfl
          · rfl
          · simp [isPath] at hp
        · rw [conversionsFrom_CielchD50, List.mem_singleton] at h3
          subst h3
          simp [isPath] at hp

/-! ## The traversal -/

/-- C1: for every source space and every value, `allConversions` returns a
mapping with exactly six entries, one for each colour space: no key is missing
and none is duplicated. -/
theorem allConversions_has_exactly_six_entries
    (apply : ConversionFunction → GenericColor → GenericColor)
    (s : ColorSpace) (v : GenericColor) :
    ∃ h : ColorHash, allConversions apply s v = some h ∧ h.length = 6 ∧ h.keys.Nodup ∧
      ∀ k : ColorSpace, k ∈ h.keys := by
  cases s <;>
    exact ⟨_, rfl, rfl, by simp [ColorHash.keys, ColorHash.insert],
      by intro k; cases k <;> simp [ColorHash.keys, ColorHash.insert]⟩

/-- C2: for every source space `s` and every value `v`, the mapping returned by
`allConversions` contains the key `s`, the value stored under it is `v`, and
`(s, v)` is the only entry with that key: the source entry is not overwritten
by a conversion leading back to `s`. -/
theorem allConversions_keeps_source_entry
    (apply : ConversionFunction → GenericColor → GenericColor)
    (s : ColorSpace) (v : GenericColor) :
    ∃ h : ColorHash, allConversions apply s v = some h ∧ h.contains s = true ∧
      h.value s = v ∧ h.filter (fun e => decide (e.1 = s)) = [(s, v)] := by
  cases s <;> exact ⟨_, rfl, rfl, rfl, rfl⟩

/-- C3: started by `allConversions` from any of the six spaces, the recursion
`addDirectConversionsRecursivly` terminates: every recursion bound of at least
six yields a result, the function is called at most six times, never twice
with the same space, and the spaces it is called with are exactly the keys of
the resulting mapping (each inserted once). -/
theorem addDirectConversionsRecursivly_terminates
    (apply : ConversionFunction → GenericColor → GenericColor)
    (s : ColorSpace) (v : GenericColor) (fuel : Nat) (hfuel : 6 ≤ fuel) :
    ∃ t : Traversal, traverse apply fuel s v = some t ∧ t.calls.length ≤ 6 ∧
      t.calls.Nodup ∧ t.values.keys = t.calls := by
  obtain ⟨k, rfl⟩ := Nat.exists_eq_add_of_le hfuel
  have h6 : ∃ t : Traversal, traverse apply 6 s v = some t ∧ t.calls.length ≤ 6 ∧
      t.calls.Nodup ∧ t.values.keys = t.calls := by
    cases s <;> exact ⟨_, rfl, Nat.le_of_eq rfl, by simp, rfl⟩
  obtain ⟨t, ht, h1, h2, h3⟩ := h6
  exact ⟨t, addDirectConversionsRecursivly_add apply 6 k _ s t ht, h1, h2, h3⟩

/-- Witness for C3 at recursion bound 9, source space XyzD50, identity
conversions. -/
theorem addDirectConversionsRecursivly_terminates_witness :
    6 ≤ 9 ∧ ∃ t : Traversal, traverse (fun _ c => c) 9 .XyzD50 {} = some t ∧
      t.calls.length ≤ 6 ∧ t.calls.Nodup ∧ t.values.keys = t.calls :=
  ⟨by decide, addDirectConversionsRecursivly_terminates (fun _ c => c) .XyzD50 {} 9 (by decide)⟩

/-! ## Gamut oracle and reducer -/

/-- C6: for every profile and every colour whose lightness is below 0 or above
100, `isCielabD50InGamut` and `isCielchD50InGamut` return false, whatever the
other two components and whatever the profile would accept. -/
theorem lightness_out_of_range_is_out_of_gamut (space : RgbColorSpace)
    (lightness second third : ℚ) (hl : lightness < 0 ∨ 100 < lightness) :
    space.isCielabD50InGamut ⟨lightness, second, third⟩ = false ∧
      space.isCielchD50InGamut ⟨lightness, second, third⟩ = false := by
  constructor
  · unfold RgbColorSpace.isCielabD50InGamut
    rw [if_pos hl]
  · unfold RgbColorSpace.isCielchD50InGamut
    rw [if_pos hl]

/-- Witness for C6: lightness 150 with a profile that would accept the
colour. -/
theorem lightness_out_of_range_is_out_of_gamut_witness :
    ((150 : ℚ) < 0 ∨ (100 : ℚ) < 150) ∧
      sampleColorSpace.isCielabD50InGamut ⟨150, 0, 0⟩ = false ∧
      sampleColorSpace.isCielchD50InGamut ⟨150, 0, 0⟩ = false :=
  ⟨Or.inr (by norm_num),
    lightness_out_of_range_is_out_of_gamut sampleColorSpace 150 0 0 (Or.inr (by norm_num))⟩

/-- C5: the gamut reducer is idempotent, for Cielch-D50 and for Oklch: reducing
the reduced colour returns the reduced colour. -/
theorem reducer_idempotent (space : RgbColorSpace) (tuning : BisectionTuning)
    (color : LchDouble) :
    space.reduceCielchD50ChromaToFitIntoGamut tuning
        (space.reduceCielchD50ChromaToFitIntoGamut tuning color)
      = space.reduceCielchD50ChromaToFitIntoGamut tuning color ∧
    space.reduceOklchChromaToFitIntoGamut tuning
        (space.reduceOklchChromaToFitIntoGamut tuning color)
      = space.reduceOklchChromaToFitIntoGamut tuning color :=
  ⟨reduceChromaToFitIntoGamut_idempotent _ _ tuning color,
    reduceChromaToFitIntoGamut_idempotent _ _ tuning color⟩

/-! ## The functions and illuminants on the edges -/

/-- C11: the polar/Cartesian step is one shared pair of functions: the edges
CielchD50 → CielabD50 and OklchD65 → OklabD65 are in the table with
`fromPolarToCartesian`, the edges CielabD50 → CielchD50 and OklabD65 → OklchD65
with `fromCartesianToPolar`, and an edge of the table carries one of the two
functions exactly when it joins these pairs in that direction. -/
theorem polar_cartesian_functions_shared :
    ((⟨.CielchD50, .CielabD50, .fromPolarToCartesian⟩ : Conversion) ∈ conversionList ∧
      (⟨.OklchD65, .OklabD65, .fromPolarToCartesian⟩ : Conversion) ∈ conversionList ∧
      (⟨.CielabD50, .CielchD50, .fromCartesianToPolar⟩ : Conversion) ∈ conversionList ∧
      (⟨.OklabD65, .OklchD65, .fromCartesianToPolar⟩ : Conversion) ∈ conversionList) ∧
    ∀ e ∈ conversionList,
      (e.conversionFunction = .fromPolarToCartesian ↔
        (e.«from» = .CielchD50 ∧ e.«to» = .CielabD50) ∨
          (e.«from» = .OklchD65 ∧ e.«to» = .OklabD65)) ∧
      (e.conversionFunction = .fromCartesianToPolar ↔
        (e.«from» = .CielabD50 ∧ e.«to» = .CielchD50) ∨
          (e.«from» = .OklabD65 ∧ e.«to» = .OklchD65)) := by
  decide

/-- C12: in `conversionList` the only XYZ space joined by an edge, in either
direction, to OklabD65 is XyzD65, and the only XYZ space joined to CielabD50 is
XyzD50; the four edges exist, with the Oklab and Cielab functions on them;
there is no edge between OklabD65 and XyzD50 nor between CielabD50 and
XyzD65. -/
theorem oklab_under_D65_cielab_under_D50 :
    (∀ x : ColorSpace, x.isXyz = true →
      ((hasEdgeBetween .OklabD65 x = true ↔ x = .XyzD65) ∧
        (hasEdgeBetween .CielabD50 x = true ↔ x = .XyzD50))) ∧
    ((⟨.XyzD65, .OklabD65, .fromXyzD65ToOklab⟩ : Conversion) ∈ conversionList ∧
      (⟨.OklabD65, .XyzD65, .fromOklabToXyzD65⟩ : Conversion) ∈ conversionList ∧
      (⟨.XyzD50, .CielabD50, .fromXyzD50ToCielabD50⟩ : Conversion) ∈ conversionList ∧
      (⟨.CielabD50, .XyzD50, .fromCielabD50ToXyzD50⟩ : Conversion) ∈ conversionList) ∧
    hasEdgeBetween .OklabD65 .XyzD50 = false ∧
    hasEdgeBetween .CielabD50 .XyzD65 = false ∧
    (∀ e ∈ conversionList,
      ¬ (e.«from» = .OklabD65 ∧ e.«to» = .XyzD50) ∧
      ¬ (e.«from» = .XyzD50 ∧ e.«to» = .OklabD65) ∧
      ¬ (e.«from» = .CielabD50 ∧ e.«to» = .XyzD65) ∧
      ¬ (e.«from» = .XyzD65 ∧ e.«to» = .CielabD50)) := by
  refine ⟨?_, by decide, by decide, by decide, by decide⟩
  intro x hx
  cases x <;> first | decide | exact absurd hx (by decide)

/-! ## Polar and Cartesian coordinates -/

/-- C7: in exact real arithmetic, for every chroma `c > 0`, every hue `h` and
every lightness `l`, converting `(l, c, h)` from polar to Cartesian and back
returns `(l, c, h mod 360)`, where `h mod 360 = h - 360 · ⌊h / 360⌋` lies in
`[0, 360)`.  Nothing is stated for `c = 0`. -/
theorem polar_round_trip (l c h : ℝ) (hc : 0 < c) :
    AbsoluteColor.fromCartesianToPolar (AbsoluteColor.fromPolarToCartesian ⟨l, c, h⟩)
        = ⟨l, c, h - 360 * (⌊h / 360⌋ : ℝ)⟩ ∧
      0 ≤ h - 360 * (⌊h / 360⌋ : ℝ) ∧ h - 360 * (⌊h / 360⌋ : ℝ) < 360 := by
  have hpi : 0 < Real.pi := Real.pi_pos
  have hfl1 : (⌊h / 360⌋ : ℝ) ≤ h / 360 := Int.floor_le _
  have hfl2 : h / 360 < ⌊h / 360⌋ + 1 := Int.lt_floor_add_one _
  obtain ⟨k, hk⟩ : ∃ k : ℤ, k = ⌊h / 360⌋ := ⟨_, rfl⟩
  rw [← hk] at hfl1 hfl2 ⊢
  obtain ⟨h', hh'⟩ : ∃ h' : ℝ, h' = h - 360 * (k : ℝ) := ⟨_, rfl⟩
  rw [← hh']
  have hlo : 0 ≤ h' := by
    rw [hh']; rw [le_div_iff₀ (by norm_num : (0:ℝ) < 360)] at hfl1; linarith
  have hhi : h' < 360 := by
    rw [hh']; rw [div_lt_iff₀ (by norm_num : (0:ℝ) < 360)] at hfl2; linarith
  refine ⟨?_, hlo, hhi⟩
  have hangle : h * Real.pi / 180 = h' * Real.pi / 180 + (k : ℝ) * (2 * Real.pi) := by
    rw [hh']; ring
  have hcos : Real.cos (h * Real.pi / 180) = Real.cos (h' * Real.pi / 180) := by
    rw [hangle, Real.cos_add_int_mul_two_pi]
  have hsin : Real.sin (h * Real.pi / 180) = Real.sin (h' * Real.pi / 180) := by
    rw [hangle, Real.sin_add_int_mul_two_pi]
  have hθlo : 0 ≤ h' * Real.pi / 180 := by positivity
  have hθhi : h' * Real.pi / 180 < 2 * Real.pi := by
    have : h' * Real.pi < 360 * Real.pi := mul_lt_mul_of_pos_right hhi hpi
    rw [div_lt_iff₀ (by norm_num : (0 : ℝ) < 180)]
    linarith
  have hsqrt : Real.sqrt ((c * Real.cos (h' * Real.pi / 180)) ^ 2
      + (c * Real.sin (h' * Real.pi / 180)) ^ 2) = c := by
    have : (c * Real.cos (h' * Real.pi / 180)) ^ 2 + (c * Real.sin (h' * Real.pi / 180)) ^ 2
        = c ^ 2 := by
      have := Real.sin_sq_add_cos_sq (h' * Real.pi / 180)
      nlinarith
    rw [this, Real.sqrt_sq hc.le]
  have hhue : (if atan2 (c * Real.sin (h' * Real.pi / 180)) (c * Real.cos (h' * Real.pi / 180))
        * 180 / Real.pi < 0
      then atan2 (c * Real.sin (h' * Real.pi / 180)) (c * Real.cos (h' * Real.pi / 180))
        * 180 / Real.pi + 360
      else atan2 (c * Real.sin (h' * Real.pi / 180)) (c * Real.cos (h' * Real.pi / 180))
        * 180 / Real.pi) = h' := by
    by_cases hle : h' * Real.pi / 180 ≤ Real.pi
    · rw [atan2_polar c _ hc (by linarith) hle]
      have e : h' * Real.pi / 180 * 180 / Real.pi = h' := by field_simp
      rw [e, if_neg (not_lt.mpr hlo)]
    · have hgt : Real.pi < h' * Real.pi / 180 := lt_of_not_le hle
      have hc2 : Real.cos (h' * Real.pi / 180) = Real.cos (h' * Real.pi / 180 - 2 * Real.pi) :=
        (Real.cos_sub_two_pi _).symm
      have hs2 : Real.sin (h' * Real.pi / 180) = Real.sin (h' * Real.pi / 180 - 2 * Real.pi) :=
        (Real.sin_sub_two_pi _).symm
      rw [hc2, hs2, atan2_polar c _ hc (by linarith) (by linarith)]
      have e : (h' * Real.pi / 180 - 2 * Real.pi) * 180 / Real.pi = h' - 360 := by
        field_simp; ring
      rw [e, if_pos (by linarith)]
      ring
  simp only [AbsoluteColor.fromCartesianToPolar, AbsoluteColor.fromPolarToCartesian]
  rw [hcos, hsin, hsqrt, hhue]

/-- Witness for C7: lightness 50, chroma 1 and hue 450 come back as
`(50, 1, 90)`. -/
theorem polar_round_trip_witness :
    (0 : ℝ) < 1 ∧
      AbsoluteColor.fromCartesianToPolar (AbsoluteColor.fromPolarToCartesian ⟨50, 1, 450⟩)
        = ⟨50, 1, 90⟩ :=
  have hfloor : ⌊(450 : ℝ) / 360⌋ = 1 := by
    rw [Int.floor_eq_iff]
    norm_num
  ⟨by norm_num, by
    rw [(polar_round_trip 50 1 450 (by norm_num)).1, hfloor]
    norm_num⟩

/-! ## GenericColor -/

/-- C13: every `GenericColor` constructor copies the supplied components
positionally and sets what is not supplied to 0: construction from a `Trio`
with entries `v1, v2, v3`, from a `cmsCIELab`, from a `cmsCIEXYZ` or from three
doubles yields `(v1, v2, v3, 0)`; construction from four doubles yields
`(v1, v2, v3, v4)`; default construction yields `(0, 0, 0, 0)`. -/
theorem constructors_copy_positionally (v1 v2 v3 v4 : ℚ) :
    (∀ init : Trio, init 0 0 = v1 → init 1 0 = v2 → init 2 0 = v3 →
      GenericColor.ofTrio init = ⟨v1, v2, v3, 0⟩) ∧
    GenericColor.ofCmsCIELab ⟨v1, v2, v3⟩ = ⟨v1, v2, v3, 0⟩ ∧
    GenericColor.ofCmsCIEXYZ ⟨v1, v2, v3⟩ = ⟨v1, v2, v3, 0⟩ ∧
    GenericColor.ofThree v1 v2 v3 = ⟨v1, v2, v3, 0⟩ ∧
    GenericColor.ofFour v1 v2 v3 v4 = ⟨v1, v2, v3, v4⟩ ∧
    GenericColor.default = ⟨0, 0, 0, 0⟩ := by
  refine ⟨?_, rfl, rfl, rfl, rfl, rfl⟩
  intro init h1 h2 h3
  simp only [GenericColor.ofTrio, h1, h2, h3]

/-- C14: for every `GenericColor` `g`, the entries (0,0), (1,0), (2,0) of
`g.toTrio` are `g.first`, `g.second`, `g.third`, in that order, and `g.fourth`
does not influence the result. -/
theorem toTrio_entries (g : GenericColor) :
    g.toTrio 0 0 = g.first ∧ g.toTrio 1 0 = g.second ∧ g.toTrio 2 0 = g.third ∧
      ∀ x : ℚ, ({ g with fourth := x } : GenericColor).toTrio = g.toTrio :=
  ⟨rfl, rfl, rfl, fun _ => rfl⟩

/-- C15: for every `GenericColor` `g`, `reinterpretAsXyzToCmsciexyz` has
`(X, Y, Z) = (first, second, third)` and `reinterpretAsLabToCmscielab` has
`(L, a, b) = (first, second, third)`; constructing a `GenericColor` from a
`cmsCIEXYZ` or a `cmsCIELab` and reinterpreting it back returns the original
triple. -/
theorem reinterpret_copies_components (g : GenericColor) :
    (g.reinterpretAsXyzToCmsciexyz.X = g.first ∧ g.reinterpretAsXyzToCmsciexyz.Y = g.second ∧
      g.reinterpretAsXyzToCmsciexyz.Z = g.third) ∧
    (( GenericColor.reinterpretAsLabToCmscielab g).L = g.first ∧
      ( GenericColor.reinterpretAsLabToCmscielab g).a = g.second ∧
      ( GenericColor.reinterpretAsLabToCmscielab g).b = g.third) ∧
    (∀ xyz : cmsCIEXYZ, (GenericColor.ofCmsCIEXYZ xyz).reinterpretAsXyzToCmsciexyz = xyz) ∧
    (∀ lab : cmsCIELab,
      GenericColor.reinterpretAsLabToCmscielab (GenericColor.ofCmsCIELab lab) = lab) :=
  ⟨⟨rfl, rfl, rfl⟩, ⟨rfl, rfl, rfl⟩, fun _ => rfl, fun _ => rfl⟩

/-! ## MultiSpinBoxSection -/

/-- C16, as stated, fails for not-a-number: on the sample section (minimum 0,
maximum 100) `setMaximum(NaN)` stores the maximum NaN and leaves the minimum 0,
because `m_minimum > m_maximum` is false; `setMinimum(NaN)` followed by
`setMaximum(30)` leaves the minimum NaN and the maximum 30.  In both states
`m_minimum <= m_maximum` is false. -/
theorem setMaximum_of_nan_breaks_order :
    ((sampleSection.setMaximum none).m_minimum = SectionDouble.finite 0 ∧
      (sampleSection.setMaximum none).m_maximum = none ∧
      SectionDouble.lessOrEqual (sampleSection.setMaximum none).m_minimum
        (sampleSection.setMaximum none).m_maximum = false) ∧
    ((runSetters sampleSection
        [SectionSetter.minimum none, SectionSetter.maximum (SectionDouble.finite 30)]).m_minimum
        = none ∧
      (runSetters sampleSection
        [SectionSetter.minimum none, SectionSetter.maximum (SectionDouble.finite 30)]).m_maximum
        = SectionDouble.finite 30 ∧
      (runSetters sampleSection
        [SectionSetter.minimum none,
          SectionSetter.maximum (SectionDouble.finite 30)]).isOrdered = false) := by
  refine ⟨⟨rfl, rfl, rfl⟩, rfl, rfl, rfl⟩

/-- C16, amended: for every state whose stored minimum and maximum are numbers
(not NaN; the infinities are numbers) and every number `x`, after
`setMaximum x` the stored maximum is `x` and the stored minimum is the smaller
of the old minimum and `x`; after `setMinimum x` the stored minimum is `x` and
the stored maximum is the larger of the old maximum and `x`; either setter
leaves minimum ≤ maximum, and every sequence of setters that passes no NaN to
`setMinimum` or `setMaximum` keeps minimum ≤ maximum; `setMinimum 50` then
`setMaximum 30` leaves both at 30. -/
theorem section_minimum_le_maximum (s : MultiSpinBoxSectionPrivate)
    (lo hi x : WithBot (WithTop ℚ)) (hmin : s.m_minimum = some lo)
    (hmax : s.m_maximum = some hi) :
    ((s.setMaximum (some x)).m_maximum = some x ∧
      (s.setMaximum (some x)).m_minimum = some (min lo x)) ∧
    ((s.setMinimum (some x)).m_minimum = some x ∧
      (s.setMinimum (some x)).m_maximum = some (max hi x)) ∧
    (s.setMaximum (some x)).isOrdered = true ∧
    (s.setMinimum (some x)).isOrdered = true ∧
    (∀ calls : List SectionSetter, (∀ call ∈ calls, call.boundIsNumber = true) →
      lo ≤ hi → (runSetters s calls).isOrdered = true) ∧
    ((runSetters s [SectionSetter.minimum (SectionDouble.finite 50),
        SectionSetter.maximum (SectionDouble.finite 30)]).m_minimum = SectionDouble.finite 30 ∧
      (runSetters s [SectionSetter.minimum (SectionDouble.finite 50),
        SectionSetter.maximum (SectionDouble.finite 30)]).m_maximum
        = SectionDouble.finite 30) := by
  have hM := setMaximum_number s lo x hmin
  have hm := setMinimum_number s hi x hmax
  refine ⟨hM, hm, ?_, ?_, ?_, ?_⟩
  · exact (isOrdered_iff _).mpr ⟨_, _, hM.2, hM.1, min_le_right _ _⟩
  · exact (isOrdered_iff _).mpr ⟨_, _, hm.1, hm.2, le_max_right _ _⟩
  · intro calls hcalls hle
    exact runSetters_isOrdered calls s hcalls ((isOrdered_iff s).mpr ⟨lo, hi, hmin, hmax, hle⟩)
  · have h1 := setMinimum_number s hi (((50 : ℚ) : WithTop ℚ) : WithBot (WithTop ℚ)) hmax
    have h2 := setMaximum_number (s.setMinimum (SectionDouble.finite 50))
      (((50 : ℚ) : WithTop ℚ) : WithBot (WithTop ℚ))
      (((30 : ℚ) : WithTop ℚ) : WithBot (WithTop ℚ)) h1.1
    have hmin3050 : min (((50 : ℚ) : WithTop ℚ) : WithBot (WithTop ℚ))
        (((30 : ℚ) : WithTop ℚ) : WithBot (WithTop ℚ))
        = (((30 : ℚ) : WithTop ℚ) : WithBot (WithTop ℚ)) := by
      apply min_eq_right
      rw [WithBot.coe_le_coe, WithTop.coe_le_coe]
      norm_num
    rw [hmin3050] at h2
    exact ⟨h2.2, h2.1⟩

/-- Witness for the amended C16 on the sample section: the sequence
`setMinimum 50`, `setDecimals 1`, `setMaximum 30`. -/
theorem section_minimum_le_maximum_witness :
    (sampleSection.m_minimum = SectionDouble.finite 0 ∧
      sampleSection.m_maximum = SectionDouble.finite 100) ∧
    (sampleSection.setMaximum (SectionDouble.finite 30)).m_maximum = SectionDouble.finite 30 ∧
    (sampleSection.setMaximum (SectionDouble.finite 30)).isOrdered = true ∧
    (runSetters sampleSection
        [SectionSetter.minimum (SectionDouble.finite 50), SectionSetter.decimals 1,
          SectionSetter.maximum (SectionDouble.finite 30)]).isOrdered = true :=
  have h := section_minimum_le_maximum sampleSection _ _
    (((30 : ℚ) : WithTop ℚ) : WithBot (WithTop ℚ)) rfl rfl
  ⟨⟨rfl, rfl⟩, h.1.1, h.2.2.1, h.2.2.2.2.1 _ (by decide)
    (by rw [WithBot.coe_le_coe, WithTop.coe_le_coe]; norm_num)⟩

/-- C18: for every integer `n`, after `setDecimals n` the getter `decimals`
returns `n` clamped to `[0, 323]`: a negative value becomes 0, a value above
323 becomes 323, a value in the range is stored as given. -/
theorem setDecimals_clamps (s : MultiSpinBoxSectionPrivate) (n : Int) :
    (s.setDecimals n).decimals = max 0 (min n 323) ∧
    (0 ≤ (s.setDecimals n).decimals ∧ (s.setDecimals n).decimals ≤ 323) ∧
    (n < 0 → (s.setDecimals n).decimals = 0) ∧
    (323 < n → (s.setDecimals n).decimals = 323) ∧
    (0 ≤ n → n ≤ 323 → (s.setDecimals n).decimals = n) := by
  have hdef : (s.setDecimals n).decimals = max 0 (min 323 n) := rfl
  rw [hdef]
  refine ⟨by rw [min_comm], ?_, ?_, ?_, ?_⟩
  · exact ⟨le_max_left _ _, max_le (by norm_num) (min_le_left _ _)⟩
  · intro h; omega
  · intro h; omega
  · intro h1 h2; omega

/-- Witness for C18: `setDecimals (-1)` stores 0, `setDecimals 400` stores 323,
`setDecimals 3` stores 3. -/
theorem setDecimals_clamps_witness :
    (sampleSection.setDecimals (-1)).decimals = 0 ∧
      (sampleSection.setDecimals 400).decimals = 323 ∧
      (sampleSection.setDecimals 3).decimals = 3 :=
  ⟨(setDecimals_clamps sampleSection (-1)).2.2.1 (by decide),
    (setDecimals_clamps sampleSection 400).2.2.2.1 (by decide),
    (setDecimals_clamps sampleSection 3).2.2.2.2 (by decide) (by decide)⟩

/-! ## GradientImageParameters -/

/-- C19, as stated, fails on doubles: for the input (50, 10, -2^(-70), 1), whose
hue is a double, `fmod` returns the hue unchanged and the sum `-2^(-70) + 360`
rounds to 360, so `completlyNormalizedAndBounded` returns the hue 360, which is
not below 360.  For every input the returned hue lies in `[0, 360]`, the
lightness in `[0, 100]`, the alpha in `[0, 1]` and the chroma is ≥ 0. -/
theorem completlyNormalizedAndBounded_returns_hue_360 :
    roundToDouble sampleTinyNegativeHue.h = sampleTinyNegativeHue.h ∧
    completlyNormalizedAndBounded sampleTinyNegativeHue = ⟨50, 10, 360, 1⟩ ∧
    ¬ (completlyNormalizedAndBounded sampleTinyNegativeHue).h < 360 ∧
    ∀ color : LchaDouble,
      (0 ≤ (completlyNormalizedAndBounded color).h ∧
        (completlyNormalizedAndBounded color).h ≤ 360) ∧
      (0 ≤ (completlyNormalizedAndBounded color).l ∧
        (completlyNormalizedAndBounded color).l ≤ 100) ∧
      (0 ≤ (completlyNormalizedAndBounded color).a ∧
        (completlyNormalizedAndBounded color).a ≤ 1) ∧
      0 ≤ (completlyNormalizedAndBounded color).c := by
  refine ⟨?_, completlyNormalizedAndBounded_sampleTinyNegativeHue, ?_, ?_⟩
  · unfold sampleTinyNegativeHue
    rw [roundToDouble_eq_of_near _ (-70) (-(2 ^ 52)) (by norm_num [abs_of_pos])
      (by norm_num [abs_of_pos]) (by norm_num) (by norm_num)]
    norm_num
  · rw [completlyNormalizedAndBounded_sampleTinyNegativeHue]
    norm_num
  · intro color
    obtain ⟨hc, hh0, hh1, hl0, hl1, ha0, ha1⟩ := completlyNormalizedAndBounded_mem color
    exact ⟨⟨hh0, hh1⟩, ⟨hl0, hl1⟩, ⟨ha0, ha1⟩, hc⟩

/-- C20, as stated, fails on doubles: for the input (50, 10, -2^(-70), 1) the
returned hue is 360, which differs from the input hue by no integer multiple
of 360; for the input (50, -3, 2^(-70), 1) of negative chroma the returned
chroma is 3 and the returned hue is 180, which differs from `2^(-70) + 180` by
no integer multiple of 360. -/
theorem completlyNormalizedAndBounded_hue_not_congruent :
    (0 ≤ sampleTinyNegativeHue.c ∧
      (completlyNormalizedAndBounded sampleTinyNegativeHue).h = 360 ∧
      ¬ ∃ k : ℤ, (completlyNormalizedAndBounded sampleTinyNegativeHue).h
        = sampleTinyNegativeHue.h + 360 * k) ∧
    (sampleTinyHueNegativeChroma.c < 0 ∧
      roundToDouble sampleTinyHueNegativeChroma.h = sampleTinyHueNegativeChroma.h ∧
      (completlyNormalizedAndBounded sampleTinyHueNegativeChroma).c = 3 ∧
      (completlyNormalizedAndBounded sampleTinyHueNegativeChroma).h = 180 ∧
      ¬ ∃ k : ℤ, (completlyNormalizedAndBounded sampleTinyHueNegativeChroma).h
        = sampleTinyHueNegativeChroma.h + 180 + 360 * k) := by
  have hε : (0 : ℚ) < 1 / 2 ^ 70 ∧ (1 : ℚ) / 2 ^ 70 < 1 := by norm_num
  have h2 : completlyNormalizedAndBounded sampleTinyHueNegativeChroma = ⟨50, 3, 180, 1⟩ := by
    have hr : roundToDouble (1 / 2 ^ 70 + 180) = 180 := by
      rw [roundToDouble_eq_of_near _ 7 (180 * 2 ^ 45) (by norm_num [abs_of_pos])
        (by norm_num [abs_of_pos]) (by norm_num) (by norm_num [abs_of_pos])]
      norm_num
    have hf : fmod 180 360 = 180 := fmod_of_mem 180 360 (by norm_num) (by norm_num)
    have hc : ((-3 : ℚ) < 0) := by norm_num
    have hn : ¬ ((180 : ℚ) < 0) := by norm_num
    unfold completlyNormalizedAndBounded sampleTinyHueNegativeChroma
    simp only [if_pos hc, hr, hf, if_neg hn]
    norm_num [qBound]
  refine ⟨⟨by norm_num [sampleTinyNegativeHue], ?_, ?_⟩,
    ⟨by norm_num [sampleTinyHueNegativeChroma], ?_, ?_, ?_, ?_⟩⟩
  · rw [completlyNormalizedAndBounded_sampleTinyNegativeHue]
  · rw [completlyNormalizedAndBounded_sampleTinyNegativeHue]
    rintro ⟨k, hk⟩
    simp only [sampleTinyNegativeHue] at hk
    rcases lt_trichotomy k 1 with hlt | heq | hgt
    · have : (k : ℚ) ≤ 0 := by exact_mod_cast Int.lt_add_one_iff.mp (by simpa using hlt)
      linarith [hε.1]
    · subst heq
      push_cast at hk
      linarith [hε.1]
    · have : (2 : ℚ) ≤ k := by exact_mod_cast hgt
      linarith [hε.2]
  · unfold sampleTinyHueNegativeChroma
    rw [roundToDouble_eq_of_near _ (-70) (2 ^ 52) (by norm_num [abs_of_pos])
      (by norm_num [abs_of_pos]) (by norm_num) (by norm_num)]
    norm_num
  · rw [h2]
  · rw [h2]
  · rw [h2]
    rintro ⟨k, hk⟩
    simp only [sampleTinyHueNegativeChroma] at hk
    rcases lt_trichotomy k 0 with hlt | heq | hgt
    · have : (k : ℚ) ≤ -1 := by exact_mod_cast Int.lt_add_one_iff.mp (by simpa using hlt)
      linarith [hε.1]
    · subst heq
      push_cast at hk
      linarith [hε.1]
    · have : (1 : ℚ) ≤ k := by exact_mod_cast hgt
      linarith [hε.1]

/-- C20, amended: for an input with `c < 0` the result has chroma `-c` and a
hue at most `2^(-53) · |h + 180| + 2^(-44)` away from a value that differs from
`h + 180` by an integer multiple of 360; for an input with `c ≥ 0` the result
has chroma `c` and a hue at most `2^(-45)` away from a value that differs from
`h` by an integer multiple of 360. -/
theorem completlyNormalizedAndBounded_negative_chroma (color : LchaDouble) :
    (color.c < 0 →
      (completlyNormalizedAndBounded color).c = -color.c ∧
        ∃ k : ℤ, |(completlyNormalizedAndBounded color).h - (color.h + 180 + 360 * k)|
          ≤ 1 / 2 ^ 53 * |color.h + 180| + 1 / 2 ^ 44) ∧
    (0 ≤ color.c →
      (completlyNormalizedAndBounded color).c = color.c ∧
        ∃ k : ℤ, |(completlyNormalizedAndBounded color).h - (color.h + 360 * k)|
          ≤ 1 / 2 ^ 45) := by
  constructor
  · intro hc
    refine ⟨?_, completlyNormalizedAndBounded_hue_near_of_neg color hc⟩
    unfold completlyNormalizedAndBounded
    simp only [if_pos hc]
    ring
  · intro hc
    refine ⟨?_, completlyNormalizedAndBounded_hue_near color hc⟩
    have hc' : ¬ color.c < 0 := not_lt.mpr hc
    unfold completlyNormalizedAndBounded
    simp only [if_neg hc']

/-- Witness for the amended C20: chroma -3 at hue -5 and chroma 3 at hue
725. -/
theorem completlyNormalizedAndBounded_negative_chroma_witness :
    ((-3 : ℚ) < 0 ∧
      (completlyNormalizedAndBounded ⟨50, -3, -5, 1⟩).c = -(-3) ∧
      ∃ k : ℤ, |(completlyNormalizedAndBounded ⟨50, -3, -5, 1⟩).h - (-5 + 180 + 360 * k)|
        ≤ 1 / 2 ^ 53 * |(-5 : ℚ) + 180| + 1 / 2 ^ 44) ∧
    ((0 : ℚ) ≤ 3 ∧
      (completlyNormalizedAndBounded ⟨50, 3, 725, 1⟩).c = 3 ∧
      ∃ k : ℤ, |(completlyNormalizedAndBounded ⟨50, 3, 725, 1⟩).h - (725 + 360 * k)|
        ≤ 1 / 2 ^ 45) :=
  ⟨⟨by norm_num,
      (completlyNormalizedAndBounded_negative_chroma ⟨50, -3, -5, 1⟩).1 (by norm_num)⟩,
    ⟨by norm_num,
      (completlyNormalizedAndBounded_negative_chroma ⟨50, 3, 725, 1⟩).2 (by norm_num)⟩⟩

/-- C21, as stated, fails on doubles: with first lightness 1 and second
lightness `2^(-60)`, both doubles, the difference `2^(-60) - 1` rounds to -1,
so `colorFromValue(1)` has lightness 0, which is not the lightness of the
second colour and lies below the lightness of both colours. -/
theorem colorFromValue_at_one_misses_second_color :
    (roundToDouble sampleCancellationGradient.m_firstColorCorrected.l
        = sampleCancellationGradient.m_firstColorCorrected.l ∧
      roundToDouble sampleCancellationGradient.m_secondColorCorrectedAndAltered.l
        = sampleCancellationGradient.m_secondColorCorrectedAndAltered.l) ∧
    (sampleCancellationGradient.colorFromValue 1).l = 0 ∧
    (sampleCancellationGradient.colorFromValue 1).l
      ≠ sampleCancellationGradient.m_secondColorCorrectedAndAltered.l ∧
    (sampleCancellationGradient.colorFromValue 1).l
      < min sampleCancellationGradient.m_firstColorCorrected.l
          sampleCancellationGradient.m_secondColorCorrectedAndAltered.l := by
  have e0 : roundToDouble (1 : ℚ) = 1 := by
    rw [roundToDouble_eq_of_near _ 0 (2 ^ 52) (by norm_num) (by norm_num) (by norm_num)
      (by norm_num)]
    norm_num
  have e0' : roundToDouble ((1 : ℚ) / 2 ^ 60) = 1 / 2 ^ 60 := by
    rw [roundToDouble_eq_of_near _ (-60) (2 ^ 52) (by norm_num [abs_of_pos])
      (by norm_num [abs_of_pos]) (by norm_num) (by norm_num)]
    norm_num
  have e1 : roundToDouble ((1 : ℚ) / 2 ^ 60 - 1) = -1 := by
    rw [roundToDouble_eq_of_near _ (-1) (-(2 ^ 53)) (by norm_num [abs_of_neg])
      (by norm_num [abs_of_neg]) (by norm_num) (by norm_num [abs_of_pos])]
    norm_num
  have e2 : roundToDouble ((-1 : ℚ) * 1) = -1 := by
    rw [roundToDouble_eq_of_near _ 0 (-(2 ^ 52)) (by norm_num) (by norm_num) (by norm_num)
      (by norm_num)]
    norm_num
  have e3 : roundToDouble ((1 : ℚ) + -1) = 0 := by
    have : ((1 : ℚ) + -1) = 0 := by norm_num
    rw [this, roundToDouble_zero]
  have hl : (sampleCancellationGradient.colorFromValue 1).l = 0 := by
    simp only [GradientImageParameters.colorFromValue, sampleCancellationGradient]
    rw [e1, e2, e3]
  refine ⟨⟨?_, ?_⟩, hl, ?_, ?_⟩
  · simp only [sampleCancellationGradient]; exact e0
  · simp only [sampleCancellationGradient]; exact e0'
  · rw [hl]; norm_num [sampleCancellationGradient]
  · rw [hl]; norm_num [sampleCancellationGradient]

/-- C22, as stated, fails: with three pixels and an abort requested once the
first pixel has been converted, `render` converts all three pixels by
consecutive calls of `fromCielchD50ToQRgbBound` and reads the abort flag only
after the loop. -/
theorem render_converts_all_pixels_after_abort_request :
    sampleRenderCall.shouldAbort 2 = true ∧
    sampleGradient.render sampleRenderCall =
      [RenderEvent.shouldAbort false,
        RenderEvent.fromCielchD50ToQRgbBound 0 ⟨155 / 3, 65 / 3, 1060 / 3⟩,
        RenderEvent.fromCielchD50ToQRgbBound 1 ⟨55, 25, 360⟩,
        RenderEvent.fromCielchD50ToQRgbBound 2 ⟨175 / 3, 85 / 3, 1100 / 3⟩,
        RenderEvent.shouldAbort true] ∧
    noAdjacentConversions (sampleGradient.render sampleRenderCall) = false ∧
    conversionCount (sampleGradient.render sampleRenderCall) = 3 := by
  have hrender : sampleGradient.render sampleRenderCall =
      [RenderEvent.shouldAbort false,
        RenderEvent.fromCielchD50ToQRgbBound 0 ⟨155 / 3, 65 / 3, 1060 / 3⟩,
        RenderEvent.fromCielchD50ToQRgbBound 1 ⟨55, 25, 360⟩,
        RenderEvent.fromCielchD50ToQRgbBound 2 ⟨175 / 3, 85 / 3, 1100 / 3⟩,
        RenderEvent.shouldAbort true] := by
    simp [GradientImageParameters.render, GradientImageParameters.pixelLoop,
      GradientImageParameters.colorFromValueExact, sampleGradient, sampleRenderCall,
      List.range_succ]
    norm_num
  refine ⟨by simp [sampleRenderCall], hrender, ?_, ?_⟩
  · rw [hrender]; rfl
  · rw [hrender]; rfl

/-- C22, amended: `render` reads the abort flag before the pixel loop, after it
and before the delivery, not inside the loop.  For a call with valid
parameters: if the flag is set at the start, nothing is converted; otherwise
all `m_gradientLength` pixels are converted by consecutive calls, the flag is
read next, and if it is set then, `render` returns without delivering; an
image is delivered only if the flag was clear at all three reads. -/
theorem render_checks_abort_around_pixel_loop (call : RenderCall)
    (p : GradientImageParameters) (hconv : call.canConvert = true)
    (hspace : p.rgbColorSpace.isSome = true) :
    (call.shouldAbort 0 = true → p.render call = [RenderEvent.shouldAbort true]) ∧
    (call.shouldAbort 0 = false →
      (∃ rest : List RenderEvent,
        p.render call = RenderEvent.shouldAbort false ::
          (p.pixelLoop ++
            RenderEvent.shouldAbort (call.shouldAbort (p.m_gradientLength.toNat + 1)) :: rest) ∧
        (∀ e ∈ rest, e.isConversion = false) ∧
        (call.shouldAbort (p.m_gradientLength.toNat + 1) = true → rest = [])) ∧
      p.pixelLoop.length = p.m_gradientLength.toNat ∧
      (∀ e ∈ p.pixelLoop, e.isConversion = true) ∧
      conversionCount (p.render call) = p.m_gradientLength.toNat ∧
      (RenderEvent.deliverInterlacingPass ∈ p.render call →
        call.shouldAbort (p.m_gradientLength.toNat + 1) = false ∧
        call.shouldAbort (p.m_gradientLength.toNat + 2) = false)) := by
  obtain ⟨hlen, hall, hfilter⟩ := pixelLoop_spec p
  have hnone : p.rgbColorSpace.isNone = false := by
    cases hrgb : p.rgbColorSpace with
    | none => rw [hrgb] at hspace; simp at hspace
    | some _ => rfl
  constructor
  · intro h0
    simp [GradientImageParameters.render, hconv, hnone, h0]
  · intro h0
    have hcount : ∀ tail : List RenderEvent, (∀ e ∈ tail, e.isConversion = false) →
        conversionCount (RenderEvent.shouldAbort false :: (p.pixelLoop ++ tail))
          = p.m_gradientLength.toNat := by
      intro tail htail
      have htf : tail.filter RenderEvent.isConversion = [] :=
        List.filter_eq_nil_iff.mpr (fun e he => by simp [htail e he])
      simp [conversionCount, List.filter_cons, RenderEvent.isConversion, List.filter_append,
        hfilter, htf, hlen]
    by_cases h1 : call.shouldAbort (p.m_gradientLength.toNat + 1) = true
    · have hr : p.render call = RenderEvent.shouldAbort false ::
          (p.pixelLoop ++ [RenderEvent.shouldAbort true]) := by
        simp [GradientImageParameters.render, hconv, hnone, h0, hlen, h1]
      refine ⟨⟨[], by rw [hr, h1], by simp, fun _ => rfl⟩, hlen, hall, ?_, ?_⟩
      · rw [hr]; exact hcount _ (by simp [RenderEvent.isConversion])
      · intro hd
        rw [hr] at hd
        simp at hd
        obtain ⟨e, he, hde⟩ : ∃ e ∈ p.pixelLoop, e = RenderEvent.deliverInterlacingPass :=
          ⟨_, hd, rfl⟩
        have := hall e he
        rw [hde] at this
        simp [RenderEvent.isConversion] at this
    · have h1f : call.shouldAbort (p.m_gradientLength.toNat + 1) = false := by
        simpa using h1
      by_cases hnull : call.resultIsNull = true
      · have hr : p.render call = RenderEvent.shouldAbort false ::
            (p.pixelLoop ++ [RenderEvent.shouldAbort false]) := by
          simp [GradientImageParameters.render, hconv, hnone, h0, hlen, h1f, hnull]
        refine ⟨⟨[], by rw [hr, h1f], by simp, fun _ => rfl⟩, hlen, hall, ?_, ?_⟩
        · rw [hr]; exact hcount _ (by simp [RenderEvent.isConversion])
        · intro hd
          rw [hr] at hd
          simp at hd
          have := hall _ hd
          simp [RenderEvent.isConversion] at this
      · have hnullf : call.resultIsNull = false := by simpa using hnull
        by_cases h2 : call.shouldAbort (p.m_gradientLength.toNat + 2) = true
        · have hr : p.render call = RenderEvent.shouldAbort false ::
              (p.pixelLoop ++ [RenderEvent.shouldAbort false, RenderEvent.shouldAbort true]) := by
            simp [GradientImageParameters.render, hconv, hnone, h0, hlen, h1f, hnullf, h2]
          refine ⟨⟨[RenderEvent.shouldAbort true], by rw [hr, h1f],
            by simp [RenderEvent.isConversion], fun h => by rw [h1f] at h; simp at h⟩,
            hlen, hall, ?_, ?_⟩
          · rw [hr]; exact hcount _ (by simp [RenderEvent.isConversion])
          · intro hd
            rw [hr] at hd
            simp at hd
            have := hall _ hd
            simp [RenderEvent.isConversion] at this
        · have h2f : call.shouldAbort (p.m_gradientLength.toNat + 2) = false := by
            simpa using h2
          have hr : p.render call = RenderEvent.shouldAbort false ::
              (p.pixelLoop ++ [RenderEvent.shouldAbort false, RenderEvent.shouldAbort false,
                RenderEvent.deliverInterlacingPass]) := by
            simp [GradientImageParameters.render, hconv, hnone, h0, hlen, h1f, hnullf, h2f]
          refine ⟨⟨[RenderEvent.shouldAbort false, RenderEvent.deliverInterlacingPass],
            by rw [hr, h1f], by simp [RenderEvent.isConversion],
            fun h => by rw [h1f] at h; simp at h⟩, hlen, hall, ?_, ?_⟩
          · rw [hr]; exact hcount _ (by simp [RenderEvent.isConversion])
          · intro _; exact ⟨h1f, h2f⟩

/-- Witness for the amended C22 on the sample call: the abort flag is clear at
the start, all three pixels are converted, the flag is set after the loop and
nothing is delivered. -/
theorem render_checks_abort_around_pixel_loop_witness :
    sampleRenderCall.canConvert = true ∧ sampleGradient.rgbColorSpace.isSome = true ∧
      sampleRenderCall.shouldAbort 0 = false ∧
      conversionCount (sampleGradient.render sampleRenderCall)
        = sampleGradient.m_gradientLength.toNat :=
  ⟨rfl, rfl, by simp [sampleRenderCall],
    ((render_checks_abort_around_pixel_loop sampleRenderCall sampleGradient rfl rfl).2
      (by simp [sampleRenderCall])).2.2.2.1⟩

/-- C24, as stated, fails on doubles: for the input (50, 10, -2^(-70), 1)
`completlyNormalizedAndBounded` returns (50, 10, 360, 1), and applied to that
it returns (50, 10, 0, 1).  For every input `x`, the second application
returns the result of the first unchanged when its hue is not 360, and with
the hue set to 0 when its hue is 360. -/
theorem completlyNormalizedAndBounded_twice_differs :
    completlyNormalizedAndBounded sampleTinyNegativeHue = ⟨50, 10, 360, 1⟩ ∧
    completlyNormalizedAndBounded (completlyNormalizedAndBounded sampleTinyNegativeHue)
      = ⟨50, 10, 0, 1⟩ ∧
    completlyNormalizedAndBounded (completlyNormalizedAndBounded sampleTinyNegativeHue)
      ≠ completlyNormalizedAndBounded sampleTinyNegativeHue ∧
    ∀ x : LchaDouble,
      ((completlyNormalizedAndBounded x).h ≠ 360 →
        completlyNormalizedAndBounded (completlyNormalizedAndBounded x)
          = completlyNormalizedAndBounded x) ∧
      ((completlyNormalizedAndBounded x).h = 360 →
        completlyNormalizedAndBounded (completlyNormalizedAndBounded x)
          = { completlyNormalizedAndBounded x with h := 0 }) := by
  have h2 : completlyNormalizedAndBounded
      (completlyNormalizedAndBounded sampleTinyNegativeHue) = ⟨50, 10, 0, 1⟩ := by
    rw [completlyNormalizedAndBounded_sampleTinyNegativeHue]
    exact completlyNormalizedAndBounded_of_hue_360 ⟨50, 10, 360, 1⟩ (by norm_num) rfl
      (by norm_num) (by norm_num) (by norm_num) (by norm_num)
  refine ⟨completlyNormalizedAndBounded_sampleTinyNegativeHue, h2, ?_, ?_⟩
  · rw [h2, completlyNormalizedAndBounded_sampleTinyNegativeHue]
    intro h
    have := congrArg LchaDouble.h h
    norm_num at this
  · intro x
    obtain ⟨hc, hh0, hh1, hl0, hl1, ha0, ha1⟩ := completlyNormalizedAndBounded_mem x
    constructor
    · intro hne
      exact completlyNormalizedAndBounded_of_normalized _ hc hh0 (lt_of_le_of_ne hh1 hne)
        hl0 hl1 ha0 ha1
    · intro heq
      exact completlyNormalizedAndBounded_of_hue_360 _ hc heq hl0 hl1 ha0 ha1

/-- C25, as stated, fails on doubles, for stored colours as the setters store
them.  With first hue 350 and stored second hue `2^(-60)` the distance rounds
to 350 and `2^(-60) + 360` rounds to 360, which differs from `2^(-60)` by no
integer multiple of 360.  With first hue `180 + 2^(-45)` and stored second hue
`2^(-45) - 2^(-60)` the distance `180 + 2^(-60)` rounds to 180, the second hue
stays, and the two hues are more than 180 apart. -/
theorem updateSecondColor_leaves_the_shorter_arc :
    ((0 ≤ sampleTinyHueGradient.m_firstColorCorrected.h ∧
        sampleTinyHueGradient.m_firstColorCorrected.h < 360) ∧
      completlyNormalizedAndBounded sampleTinyHueGradient.m_secondColorCorrectedAndAltered
        = sampleTinyHueGradient.m_secondColorCorrectedAndAltered ∧
      roundToDouble sampleTinyHueGradient.m_secondColorCorrectedAndAltered.h
        = sampleTinyHueGradient.m_secondColorCorrectedAndAltered.h ∧
      sampleTinyHueGradient.updateSecondColor.m_secondColorCorrectedAndAltered.h = 360 ∧
      ¬ ∃ k : ℤ, sampleTinyHueGradient.updateSecondColor.m_secondColorCorrectedAndAltered.h
        = sampleTinyHueGradient.m_secondColorCorrectedAndAltered.h + 360 * k) ∧
    ((0 ≤ sampleHalfTurnGradient.m_firstColorCorrected.h ∧
        sampleHalfTurnGradient.m_firstColorCorrected.h < 360) ∧
      completlyNormalizedAndBounded sampleHalfTurnGradient.m_secondColorCorrectedAndAltered
        = sampleHalfTurnGradient.m_secondColorCorrectedAndAltered ∧
      (roundToDouble sampleHalfTurnGradient.m_firstColorCorrected.h
          = sampleHalfTurnGradient.m_firstColorCorrected.h ∧
        roundToDouble sampleHalfTurnGradient.m_secondColorCorrectedAndAltered.h
          = sampleHalfTurnGradient.m_secondColorCorrectedAndAltered.h) ∧
      sampleHalfTurnGradient.updateSecondColor.m_secondColorCorrectedAndAltered.h
        = 1 / 2 ^ 45 - 1 / 2 ^ 60 ∧
      180 < |sampleHalfTurnGradient.updateSecondColor.m_secondColorCorrectedAndAltered.h
        - sampleHalfTurnGradient.updateSecondColor.m_firstColorCorrected.h|) := by
  have hε : (0 : ℚ) < 1 / 2 ^ 60 ∧ (1 : ℚ) / 2 ^ 60 < 1 := by norm_num
  have n1 : completlyNormalizedAndBounded ⟨60, 30, 1 / 2 ^ 60, 1⟩
      = ⟨60, 30, 1 / 2 ^ 60, 1⟩ :=
    completlyNormalizedAndBounded_of_normalized _ (by norm_num) (by norm_num) (by norm_num)
      (by norm_num) (by norm_num) (by norm_num) (by norm_num)
  have n2 : completlyNormalizedAndBounded ⟨60, 30, 1 / 2 ^ 45 - 1 / 2 ^ 60, 1⟩
      = ⟨60, 30, 1 / 2 ^ 45 - 1 / 2 ^ 60, 1⟩ :=
    completlyNormalizedAndBounded_of_normalized _ (by norm_num) (by norm_num) (by norm_num)
      (by norm_num) (by norm_num) (by norm_num) (by norm_num)
  have d1 : roundToDouble (350 - 1 / 2 ^ 60) = 350 := by
    rw [roundToDouble_eq_of_near _ 8 (350 * 2 ^ 44) (by norm_num [abs_of_pos])
      (by norm_num [abs_of_pos]) (by norm_num) (by norm_num [abs_of_neg])]
    norm_num
  have a1 : roundToDouble (1 / 2 ^ 60 + 360) = 360 := by
    rw [roundToDouble_eq_of_near _ 8 (360 * 2 ^ 44) (by norm_num [abs_of_pos])
      (by norm_num [abs_of_pos]) (by norm_num) (by norm_num [abs_of_pos])]
    norm_num
  have d2 : roundToDouble (180 + 1 / 2 ^ 45 - (1 / 2 ^ 45 - 1 / 2 ^ 60)) = 180 := by
    rw [roundToDouble_eq_of_near _ 7 (180 * 2 ^ 45) (by norm_num [abs_of_pos])
      (by norm_num [abs_of_pos]) (by norm_num) (by norm_num [abs_of_pos])]
    norm_num
  have r0 : roundToDouble ((1 : ℚ) / 2 ^ 60) = 1 / 2 ^ 60 := by
    rw [roundToDouble_eq_of_near _ (-60) (2 ^ 52) (by norm_num [abs_of_pos])
      (by norm_num [abs_of_pos]) (by norm_num) (by norm_num)]
    norm_num
  have r1 : roundToDouble ((180 : ℚ) + 1 / 2 ^ 45) = 180 + 1 / 2 ^ 45 := by
    rw [roundToDouble_eq_of_near _ 7 (180 * 2 ^ 45 + 1) (by norm_num [abs_of_pos])
      (by norm_num [abs_of_pos]) (by norm_num) (by norm_num)]
    norm_num
  have r2 : roundToDouble ((1 : ℚ) / 2 ^ 45 - 1 / 2 ^ 60) = 1 / 2 ^ 45 - 1 / 2 ^ 60 := by
    rw [roundToDouble_eq_of_near _ (-46) ((2 ^ 15 - 1) * 2 ^ 38) (by norm_num [abs_of_pos])
      (by norm_num [abs_of_pos]) (by norm_num) (by norm_num)]
    norm_num
  have u1 : sampleTinyHueGradient.updateSecondColor.m_secondColorCorrectedAndAltered.h
      = 360 := by
    have hg1 : |(350 : ℚ)| > 180 := by norm_num [abs_of_pos]
    have hg2 : (350 : ℚ) > 1 / 2 ^ 60 := by norm_num
    simp only [GradientImageParameters.updateSecondColor, sampleTinyHueGradient, n1, d1,
      if_pos hg1, if_pos hg2, a1]
  have u2 : sampleHalfTurnGradient.updateSecondColor.m_secondColorCorrectedAndAltered.h
      = 1 / 2 ^ 45 - 1 / 2 ^ 60 := by
    simp only [GradientImageParameters.updateSecondColor, sampleHalfTurnGradient, n2, d2]
    norm_num
  have f2 : sampleHalfTurnGradient.updateSecondColor.m_firstColorCorrected.h
      = 180 + 1 / 2 ^ 45 := by
    simp only [GradientImageParameters.updateSecondColor, sampleHalfTurnGradient, n2, d2]
    norm_num
  refine ⟨⟨by norm_num [sampleTinyHueGradient], n1, r0, u1, ?_⟩,
    ⟨by norm_num [sampleHalfTurnGradient], n2, ⟨r1, r2⟩, u2, ?_⟩⟩
  · rw [u1]
    rintro ⟨k, hk⟩
    simp only [sampleTinyHueGradient] at hk
    rcases lt_trichotomy k 1 with hlt | heq | hgt
    · have : (k : ℚ) ≤ 0 := by exact_mod_cast Int.lt_add_one_iff.mp (by simpa using hlt)
      linarith [hε.1, hε.2]
    · subst heq
      push_cast at hk
      linarith [hε.1]
    · have : (2 : ℚ) ≤ k := by exact_mod_cast hgt
      linarith [hε.1]
  · rw [u2, f2]
    norm_num [abs_of_neg]

/-- C25, amended: for every first colour with hue in `[0, 360)` and every
stored second colour of non-negative chroma, after `updateSecondColor` the
second colour's hue differs from the first colour's hue by at most
`180 + 2^(-43)` in absolute value, and it is at most `2^(-43)` away from a
value that differs from the second colour's hue before the call by an integer
multiple of 360; the stored chroma is non-negative afterwards. -/
theorem updateSecondColor_shorter_arc (p : GradientImageParameters)
    (h0 : 0 ≤ p.m_firstColorCorrected.h) (h1 : p.m_firstColorCorrected.h < 360)
    (hc : 0 ≤ p.m_secondColorCorrectedAndAltered.c) :
    |p.updateSecondColor.m_secondColorCorrectedAndAltered.h
        - p.updateSecondColor.m_firstColorCorrected.h| ≤ 180 + 1 / 2 ^ 43 ∧
    (∃ k : ℤ, |p.updateSecondColor.m_secondColorCorrectedAndAltered.h
        - (p.m_secondColorCorrectedAndAltered.h + 360 * k)| ≤ 1 / 2 ^ 43) ∧
    0 ≤ p.updateSecondColor.m_secondColorCorrectedAndAltered.c := by
  obtain ⟨hfirst, hc', habs, ⟨k, hk⟩⟩ := updateSecondColor_spec p h0 h1
  obtain ⟨j, hj⟩ := completlyNormalizedAndBounded_hue_near p.m_secondColorCorrectedAndAltered hc
  refine ⟨?_, ⟨j + k, ?_⟩, ?_⟩
  · rw [hfirst]
    have : (3 : ℚ) / 2 ^ 45 ≤ 1 / 2 ^ 43 := by norm_num
    linarith
  · push_cast
    rw [abs_le] at hk hj ⊢
    have e1 : (1 : ℚ) / 2 ^ 44 = 2 / 2 ^ 45 := by norm_num
    have e2 : (1 : ℚ) / 2 ^ 43 = 4 / 2 ^ 45 := by norm_num
    have e3 : (0 : ℚ) < 1 / 2 ^ 45 := by norm_num
    constructor <;> linarith [hk.1, hk.2, hj.1, hj.2]
  · rw [hc']
    exact (completlyNormalizedAndBounded_mem p.m_secondColorCorrectedAndAltered).1

/-- Witness for the amended C25 on the sample gradient: first hue 350, stored
second hue 370 at chroma 30. -/
theorem updateSecondColor_shorter_arc_witness :
    (0 ≤ sampleGradient.m_firstColorCorrected.h ∧
      sampleGradient.m_firstColorCorrected.h < 360 ∧
      0 ≤ sampleGradient.m_secondColorCorrectedAndAltered.c) ∧
    |sampleGradient.updateSecondColor.m_secondColorCorrectedAndAltered.h
        - sampleGradient.updateSecondColor.m_firstColorCorrected.h| ≤ 180 + 1 / 2 ^ 43 :=
  have h0 : 0 ≤ sampleGradient.m_firstColorCorrected.h := by norm_num [sampleGradient]
  have h1 : sampleGradient.m_firstColorCorrected.h < 360 := by norm_num [sampleGradient]
  have hc : 0 ≤ sampleGradient.m_secondColorCorrectedAndAltered.c := by
    norm_num [sampleGradient]
  ⟨⟨h0, h1, hc⟩, (updateSecondColor_shorter_arc sampleGradient h0 h1 hc).1⟩

/-! ## The conversion graph as a tree -/

/-- C23: the undirected graph underlying `conversionList` is the simple path
CielchD50 - CielabD50 - XyzD50 - XyzD65 - OklabD65 - OklchD65: two spaces are
joined exactly when they are neighbours on that line.  For every ordered pair
of spaces there is exactly one directed path that visits no space twice, the
one along the line.  The value `allConversions` stores for a target is the
composition of the edge functions along that path; the breadth-first traversal
stores the same values; and so does every traversal that inserts the targets
in any other order. -/
theorem conversion_graph_is_a_tree :
    (∀ a b : ColorSpace, a.position = b.position → a = b) ∧
    (∀ a b : ColorSpace, hasEdgeBetween a b = true ↔
      (a.position + 1 = b.position ∨ b.position + 1 = a.position)) ∧
    (∀ (a b : ColorSpace) (p : List Conversion),
      (isPath a b p = true ∧ (pathVertices a p).Nodup) ↔ p = pathBetween a b) ∧
    (∀ (apply : ConversionFunction → GenericColor → GenericColor) (s : ColorSpace)
        (v : GenericColor) (t : ColorSpace),
      ∃ h : ColorHash, allConversions apply s v = some h ∧ h.contains t = true ∧
        h.value t = composeAlong apply (pathBetween s t) v ∧
        (allConversionsBreadthFirst apply s v).contains t = true ∧
        (allConversionsBreadthFirst apply s v).value t = h.value t) ∧
    (∀ (apply : ConversionFunction → GenericColor → GenericColor) (s : ColorSpace)
        (v : GenericColor) (order : List Conversion) (result : ColorHash),
      insertInOrder apply (ColorHash.insert [] s v) order = some result →
      ∀ t : ColorSpace, result.contains t = true →
        result.value t = composeAlong apply (pathBetween s t) v) := by
  refine ⟨?_, ?_, ?_, ?_, ?_⟩
  · intro a b; cases a <;> cases b <;> decide
  · intro a b; cases a <;> cases b <;> decide
  · intro a b p
    constructor
    · rintro ⟨hpath, hnodup⟩
      exact eq_pathBetween_of_simple a b p hpath hnodup
    · rintro rfl
      exact pathBetween_simple a b
  · intro apply s v t
    obtain ⟨h, hsome, hmap, hkeys⟩ := allConversions_tree apply s v
    obtain ⟨bmap, bkeys⟩ := allConversionsBreadthFirst_tree apply s v
    have hval : h.value t = composeAlong apply (pathBetween s t) v := by
      have hcongr := congrArg (fun m : ColorHash => m.value t) hmap
      simp only at hcongr
      rw [hcongr]
      exact ColorHash.value_map_keys (fun k => composeAlong apply (pathBetween s k) v)
        h.keys t (hkeys t)
    have bval : (allConversionsBreadthFirst apply s v).value t
        = composeAlong apply (pathBetween s t) v := by
      have hcongr := congrArg (fun m : ColorHash => m.value t) bmap
      simp only at hcongr
      rw [hcongr]
      exact ColorHash.value_map_keys (fun k => composeAlong apply (pathBetween s k) v)
        _ t (bkeys t)
    exact ⟨h, hsome, (ColorHash.contains_iff_mem_keys h t).mpr (hkeys t), hval,
      (ColorHash.contains_iff_mem_keys _ t).mpr (bkeys t), by rw [bval, hval]⟩
  · intro apply s v order result hrun t ht
    exact (insertInOrder_invariant apply s v order _ result
      (insertInOrder_start apply s v) hrun t ht).1
end PerceptualColor
